import Mathlib

/-
Verification of the prisma-query-tools transcoding engine
(src/parser.ts, src/serializer.ts, src/merge.ts).

The TypeScript code is shallowly embedded below.  JavaScript values that can
occur in the query structures are modelled by the inductive type `JSValue`;
JavaScript objects are modelled as association lists whose keys are unique by
construction (assignment replaces the value of an existing key in place and
appends fresh keys at the end, exactly mirroring JS object insertion-order
semantics).  Raw query-parameter maps are string-to-string maps, following the
data model of the specification (query-string decoding delivers strings).

JS numbers are modelled by `Int`: the library only ever constructs numbers via
`parseInt(-, 10)`, integer arithmetic on page/limit, and the `Number(s)`
coercion of filter values, whose print-back canonicity test is modelled on the
decimal-integer fragment of JS numbers.
-/

namespace PQ

/-- JSValue models the JavaScript values that flow through the library.
Numbers are modelled by integers (see the header comment). -/
inductive JSValue where
  | str (s : String)
  | num (n : Int)
  | bool (b : Bool)
  | null
  | undef
  | arr (elems : List JSValue)
  | obj (fields : List (String × JSValue))
deriving Repr, BEq

/-- Obj models a plain JavaScript object: an insertion-ordered association
list with unique keys. -/
abbrev Obj := List (String × JSValue)

/-- getV models property lookup `o[k]` on a JS object (first match). -/
def getV {α : Type} (o : List (String × α)) (k : String) : Option α :=
  match o with
  | [] => none
  | (k', v) :: rest => if k' = k then some v else getV rest k

/-- setV models property assignment `o[k] = v` on a JS object: an existing
key keeps its position and gets the new value, a fresh key is appended. -/
def setV {α : Type} (o : List (String × α)) (k : String) (v : α) : List (String × α) :=
  match o with
  | [] => [(k, v)]
  | (k', v') :: rest => if k' = k then (k', v) :: rest else (k', v') :: setV rest k v

/-- splitCharList models `String.prototype.split(sep)` on character lists:
n separators yield n+1 chunks, empty chunks included. -/
def splitCharList (sep : Char) : List Char → List (List Char)
  | [] => [[]]
  | c :: cs =>
      let r := splitCharList sep cs
      if c = sep then [] :: r
      else
        match r with
        | h :: t => (c :: h) :: t
        | [] => [[c]]

/-- splitStr is `s.split(sep)` at the string level. -/
def splitStr (sep : Char) (s : String) : List String :=
  (splitCharList sep s.toList).map (fun l => ⟨l⟩)

/-- joinStr is `Array.prototype.join(sep)`: interleave the separator. -/
def joinStr (sep : String) : List String → String
  | [] => ""
  | [x] => x
  | x :: xs => x ++ sep ++ joinStr sep xs

/-- isDigitChar recognizes the ASCII decimal digits. -/
def isDigitChar (c : Char) : Bool := '0' ≤ c && c ≤ '9'

/-- charToDigit gives the numeric value of an ASCII digit character. -/
def charToDigit (c : Char) : Nat := c.toNat - 48

/-- digitsVal folds a big-endian digit-character list into a number. -/
def digitsVal (l : List Char) : Nat :=
  l.foldl (fun acc c => acc * 10 + charToDigit c) 0

/-- decDigits? parses a nonempty all-digit character list, `none` otherwise. -/
def decDigits? (l : List Char) : Option Nat :=
  if l ≠ [] ∧ l.all isDigitChar then some (digitsVal l) else none

/-- decChar is the ASCII character of a decimal digit (digits above 9 do not
occur at any call site). -/
def decChar (d : Nat) : Char :=
  match d with
  | 0 => '0' | 1 => '1' | 2 => '2' | 3 => '3' | 4 => '4'
  | 5 => '5' | 6 => '6' | 7 => '7' | 8 => '8' | 9 => '9'
  | _ => '0'

/-- natDecAux prints the big-endian decimal digits of `n`; the fuel argument
only bounds the recursion depth and is irrelevant once `n < fuel`. -/
def natDecAux : Nat → Nat → List Char
  | 0, _ => []
  | fuel + 1, n => if n < 10 then [decChar n] else natDecAux fuel (n / 10) ++ [decChar (n % 10)]

/-- natToDecString prints a natural number in canonical decimal form. -/
def natToDecString (n : Nat) : String :=
  ⟨natDecAux (n + 1) n⟩

/-- intToDecString models `String(n)` for an integer-valued JS number. -/
def intToDecString (i : Int) : String :=
  if i < 0 then "-" ++ natToDecString i.natAbs else natToDecString i.toNat

/-- jsNumParse models `Number(s)` on the decimal-integer fragment: an
optional minus sign followed by at least one digit, whole string.  Strings
outside this fragment (empty, whitespace-padded, fractional, exponent or
hexadecimal forms, Infinity) are mapped to `none`; for all of those except
canonically printed non-integer numbers the observable behaviour of the
coercion below agrees with JS, because the print-back test fails there too. -/
def jsNumParse (s : String) : Option Int :=
  if s.toList.head? = some '-' then (decDigits? s.toList.tail).map (fun m => -(m : Int))
  else (decDigits? s.toList).map (fun m => (m : Int))

/-- isJsWhitespace covers the common JS whitespace characters recognised by
`parseInt`. -/
def isJsWhitespace (c : Char) : Bool :=
  c = ' ' || c = '\t' || c = '\n' || c = '\r' || c = '\x0b' || c = '\x0c'

/-- parseIntJS models `parseInt(s, 10)`: skip leading whitespace, read an
optional sign and then the maximal leading run of decimal digits, ignoring
any trailing characters; `none` models the NaN result. -/
def parseIntJS (s : String) : Option Int :=
  let body : List Char → Option Int := fun l =>
    let ds := l.takeWhile isDigitChar
    if ds = [] then none else some ((digitsVal ds : Nat) : Int)
  match s.toList.dropWhile isJsWhitespace with
  | '-' :: rest => (body rest).map (fun m => -m)
  | '+' :: rest => body rest
  | l => body l

/-- convertValueType models `convertValueType` from src/parser.ts: non-string
values pass through; the literal strings true/false become booleans; a string
that parses as a number and prints back to itself becomes that number;
every other string stays a string. -/
def convertValueType (v : JSValue) : JSValue :=
  match v with
  | .str s =>
      if s = "true" then .bool true
      else if s = "false" then .bool false
      else
        match jsNumParse s with
        | some n => if intToDecString n = s then .num n else .str s
        | none => .str s
  | v => v

/-- convertValueTypeG is convertValueType with the platform conversions as
parameters: toNum is the partial function that `Number(s)` computes when the
result is not NaN, toStr is `String(n)`, and mkNum embeds the resulting
number as a value.  The branch structure is exactly that of the source
guard, `not isNaN(Number(value)) and value nonempty and
String(Number(value)) equal to value`; convertValueType is its instance at
the decimal-integer conversion pair this model uses elsewhere. -/
def convertValueTypeG {Num : Type} (toNum : String → Option Num)
    (toStr : Num → String) (mkNum : Num → JSValue) (v : JSValue) : JSValue :=
  match v with
  | .str s =>
      if s = "true" then .bool true
      else if s = "false" then .bool false
      else
        match toNum s with
        | some n => if s ≠ "" ∧ toStr n = s then mkNum n else .str s
        | none => .str s
  | v => v

/-- setNestedObj is the traversal loop of `setNestedValue`: walk the listed
keys, descending into an existing object and replacing an absent or
non-object value by a fresh empty object, then assign the value at the final
key.  (In JS, `typeof null` and `typeof` of an array are also `object`; the
walk would descend into them, but the filter trees this function is applied
to contain only plain objects and coerced scalars, so those cases are
unreachable and are modelled like the non-object case.) -/
def setNestedObj : Obj → List String → String → JSValue → Obj
  | o, [], lastKey, v => setV o lastKey v
  | o, k :: rest, lastKey, v =>
      match getV o k with
      | some (.obj t) => setV o k (.obj (setNestedObj t rest lastKey v))
      | _ => setV o k (.obj (setNestedObj [] rest lastKey v))

/-- setNestedValue models `setNestedValue` from src/parser.ts: split the path
on dots, pop the last key, walk/create the intermediate objects and assign
the type-converted value at the last key. -/
def setNestedValue (o : Obj) (path : String) (v : JSValue) : Obj :=
  match splitStr '.' path with
  | [] => o
  | segs => setNestedObj o segs.dropLast (segs.getLastD "") (convertValueType v)

/-- QueryOptions mirrors the QueryOptions interface of src/types.ts (the
intermediate shape the parser extracts and the input shape of the
serializer). -/
structure QueryOptions where
  page : Option Int := none
  limit : Option Int := none
  sort : Option String := none
  fields : Option (List String) := none
  filters : Option Obj := none
deriving Repr, BEq

/-- PrismaQuery mirrors the PrismaQuery interface of src/types.ts.  The
fields named `where`, `include` and `omit` in TypeScript are spelled
`where_`, `include_` and `omit_` here because those words are reserved in
Lean. -/
structure PrismaQuery where
  skip : Option Int := none
  take : Option Int := none
  select : Option Obj := none
  omit_ : Option Obj := none
  orderBy : Option (List (String × String)) := none
  where_ : Option Obj := none
  include_ : Option Obj := none
deriving Repr, BEq

/-- QueryParseResult mirrors the QueryParseResult interface of src/types.ts;
the errors mapping is a JS object, modelled as an association list. -/
structure QueryParseResult where
  data : PrismaQuery
  success : Bool
  errors : List (String × String)
deriving Repr, BEq

/-- filterPath? models matching a raw key against the regular expression
`^filters\[(.+)\]$`: the key must start with the literal `filters[`, end
with `]`, and have at least one character in between; the captured path is
everything between that prefix and the final bracket. -/
def filterPath? (k : String) : Option String :=
  let l := k.toList
  if l.take 8 = "filters[".toList ∧ l.getLast? = some ']' ∧ 10 ≤ l.length
  then some ⟨(l.drop 8).dropLast⟩ else none

/-- insFilter is one step of the filter-detection loop of parseQuery: a raw
key matching the filters pattern contributes its value, via the nested-path
walk when the captured path contains a dot and directly (type-converted)
otherwise; any other key is skipped. -/
def insFilter (acc : Obj) (kv : String × String) : Obj :=
  match filterPath? kv.1 with
  | some path =>
      if path.toList.contains '.' then setNestedValue acc path (.str kv.2)
      else setV acc path (convertValueType (.str kv.2))
  | none => acc

/-- buildFilters models the filter-detection loop of parseQuery over all raw
keys in order. -/
def buildFilters (raw : List (String × String)) : Obj :=
  raw.foldl insFilter []

/-- strTrim models `String.prototype.trim` (on the whitespace characters the
inputs here can contain). -/
def strTrim (s : String) : String :=
  ⟨((s.toList.dropWhile isJsWhitespace).reverse.dropWhile isJsWhitespace).reverse⟩

/-- extractOptions models the first pass of parseQuery: read page and limit
through `parseInt(-, 10)` (a NaN result records a per-field error and leaves
the field unset), take sort as a string, split fields on commas (trimmed,
empty entries dropped), and collect the filters object.  Raw parameter maps
are string-valued (query-string decoding delivers strings), so the
`String(...)` coercions of the source are identities here. -/
def extractOptions (raw : List (String × String)) :
    QueryOptions × List (String × String) :=
  let pageR : Option Int × List (String × String) :=
    match getV raw "page" with
    | none => (none, [])
    | some s =>
        match parseIntJS s with
        | none => (none, [("page", "Page must be a valid number")])
        | some n => (some n, [])
  let limitR : Option Int × List (String × String) :=
    match getV raw "limit" with
    | none => (none, [])
    | some s =>
        match parseIntJS s with
        | none => (none, [("limit", "Limit must be a valid number")])
        | some n => (some n, [])
  ({ page := pageR.1
     limit := limitR.1
     sort := getV raw "sort"
     fields := (getV raw "fields").map
       (fun s => ((splitStr ',' s).map strTrim).filter (fun f => f ≠ ""))
     filters := some (buildFilters raw) },
   pageR.2 ++ limitR.2)

/-- isWordChar recognizes the character class `[A-Za-z0-9_]`. -/
def isWordChar (c : Char) : Bool :=
  ('a' ≤ c && c ≤ 'z') || ('A' ≤ c && c ≤ 'Z') || isDigitChar c || c = '_'

/-- sortTermOk checks one comma-separated term of the sort schema pattern:
a nonempty `[A-Za-z0-9_]+` token, optionally followed by a colon and the
lowercase keyword asc or desc (the source regex has no ignore-case flag). -/
def sortTermOk (t : String) : Bool :=
  match splitStr ':' t with
  | [tok] => tok ≠ "" && tok.toList.all isWordChar
  | [tok, dir] => tok ≠ "" && tok.toList.all isWordChar && (dir = "asc" || dir = "desc")
  | _ => false

/-- sortPatternOk models the sort regular expression of querySchema,
`^[a-zA-Z0-9_]+(:(asc|desc))?(,[a-zA-Z0-9_]+(:(asc|desc))?)*$`: every
comma-separated term must match, and the empty string fails because its
single empty term fails. -/
def sortPatternOk (s : String) : Bool :=
  (splitStr ',' s).all sortTermOk

/-- fieldPatternOk models the fields regular expression `^[a-zA-Z0-9_.]+$`
of querySchema. -/
def fieldPatternOk (f : String) : Bool :=
  f ≠ "" && f.toList.all (fun c => isWordChar c || c = '.')

/-- validateQuery models validating the extracted options against
querySchema with abortEarly false: page and limit must be at least 1 when
present (they are integers by construction here), sort must match its
pattern, every fields entry must match its pattern (element errors are keyed
fields[i] as yup reports them).  Unknown keys such as filters are ignored by
the schema. -/
def validateQuery (q : QueryOptions) : List (String × String) :=
  (match q.page with
   | some p => if p < 1 then [("page", "Page must be a positive integer")] else []
   | none => []) ++
  (match q.limit with
   | some l => if l < 1 then [("limit", "Limit must be a positive integer")] else []
   | none => []) ++
  (match q.sort with
   | some s =>
      if sortPatternOk s then []
      else [("sort", "Sort must be in format field:direction (e.g. name:asc,createdAt:desc)")]
   | none => []) ++
  (match q.fields with
   | some fs =>
      (fs.enum).filterMap
        (fun p =>
          if fieldPatternOk p.2 then none
          else some ("fields[" ++ toString p.1 ++ "]", "Field names must be alphanumeric with optional dots for nested fields"))
   | none => [])

/-- mergeErrors models writing the schema errors into the result errors
object on top of the extraction errors (assignment by key). -/
def mergeErrors (base more : List (String × String)) : List (String × String) :=
  more.foldl (fun es kv => setV es kv.1 kv.2) base

/-- lowerChar lower-cases one ASCII letter and leaves every other character
unchanged. -/
def lowerChar (c : Char) : Char :=
  if 'A' ≤ c ∧ c ≤ 'Z' then Char.ofNat (c.toNat + 32) else c

/-- strToLower models `String.prototype.toLowerCase` on ASCII strings (the
only strings compared against asc and desc here). -/
def strToLower (s : String) : String :=
  ⟨s.toList.map lowerChar⟩

/-- orderByOfSort models the sort walk of parseQuery: split on commas, split
each part on colons; an empty field name aborts with the sort error
(modelled by `none`); a direction is recognized case-insensitively and
lower-cased, anything else (including a missing direction) defaults to asc. -/
def orderByOfSort (s : String) : Option (List (String × String)) :=
  go (splitStr ',' s)
where
  /-- go processes the comma-separated parts in order. -/
  go : List String → Option (List (String × String))
    | [] => some []
    | part :: rest =>
        let cs := splitStr ':' part
        let field := cs.headD ""
        if field = "" then none
        else
          let direction :=
            match cs.get? 1 with
            | some dir =>
                if dir ≠ "" && (strToLower dir = "desc" || strToLower dir = "asc")
                then strToLower dir else "asc"
            | none => "asc"
          (go rest).map (fun l => (field, direction) :: l)

/-- insSelectParts is the nested-field walk of the selection pass: descend
through `{ select: ... }` wrappers, creating a fresh wrapper when the key is
absent or currently holds a non-object (such as a boolean leaf), and set the
final segment to true.  (A wrapper object always carries its select subtree
as an object, so the remaining cases of the source checks are unreachable.) -/
def insSelectParts : Obj → List String → String → Obj
  | o, [], lastK => setV o lastK (.bool true)
  | o, k :: rest, lastK =>
      match getV o k with
      | some (.obj w) =>
          match getV w "select" with
          | some (.obj t) => setV o k (.obj (setV w "select" (.obj (insSelectParts t rest lastK))))
          | _ => setV o k (.obj [("select", .obj (insSelectParts [] rest lastK))])
      | _ => setV o k (.obj [("select", .obj (insSelectParts [] rest lastK))])

/-- insertSelectField models handling one entry of the fields list: a dotted
field walks the select tree with wrappers, a plain field is set to true at
the top level. -/
def insertSelectField (o : Obj) (field : String) : Obj :=
  if field.toList.contains '.' then
    match splitStr '.' field with
    | [] => o
    | segs => insSelectParts o segs.dropLast (segs.getLastD "")
  else setV o field (.bool true)

/-- paginationOf is the pagination statement of the projection pass of
parseQuery (JS truthiness: a present page or limit equal to 0 is falsy). -/
def paginationOf (page? limit? : Option Int) : Option Int × Option Int :=
  match page?, limit? with
  | some p, some l =>
      if p ≠ 0 ∧ l ≠ 0 then (some ((p - 1) * l), some l)
      else if l ≠ 0 then (none, some l) else (none, none)
  | none, some l => if l ≠ 0 then (none, some l) else (none, none)
  | _, _ => (none, none)

/-- selectOf is the field-selection statement of the projection pass. -/
def selectOf (fields? : Option (List String)) : Option Obj :=
  match fields? with
  | some fs => if fs.length > 0 then some (fs.foldl insertSelectField []) else none
  | none => none

/-- whereOf is the filters statement of the projection pass: a nonempty
filters object becomes the where tree verbatim. -/
def whereOf (filters? : Option Obj) : Option Obj :=
  match filters? with
  | some f => if f.isEmpty then none else some f
  | none => none

/-- sortProjection is the sorting statement of the projection pass: a truthy
(nonempty) sort string is walked, and an empty field name aborts the whole
parse with the sort error. -/
def sortProjection (sort? : Option String) :
    Except (List (String × String)) (Option (List (String × String))) :=
  match sort? with
  | some s =>
      if s ≠ "" then
        match orderByOfSort s with
        | some l => .ok (some l)
        | none => .error [("sort", "Invalid sort format. Field name is required")]
      else .ok none
  | none => .ok none

/-- projectQuery models the second pass of parseQuery: derive skip/take from
page and limit, build the select tree from fields, the orderBy list from
sort (aborting on an empty field name), and install the filters object as
where when it is nonempty. -/
def projectQuery (q : QueryOptions) : Except (List (String × String)) PrismaQuery :=
  match sortProjection q.sort with
  | .error e => .error e
  | .ok ob =>
      .ok { skip := (paginationOf q.page q.limit).1,
            take := (paginationOf q.page q.limit).2,
            select := selectOf q.fields, orderBy := ob, where_ := whereOf q.filters }

/-- parseQuery models parseQuery from src/parser.ts over a string-valued raw
parameter map: extraction, schema validation with aggregated errors, then
projection to the PrismaQuery shape; any error yields success false with
empty data.  (The catch-all general error of the source is unreachable for
string-valued maps.) -/
def parseQuery (raw : List (String × String)) : QueryParseResult :=
  let ex := extractOptions raw
  let errs := mergeErrors ex.2 (validateQuery ex.1)
  if errs ≠ [] then { data := {}, success := false, errors := errs }
  else
    match projectQuery ex.1 with
    | .error e => { data := {}, success := false, errors := e }
    | .ok d => { data := d, success := true, errors := [] }

mutual

/-- jsToString models the JS `String(v)` conversion for the values that can
appear as serialized parameter values: strings and numbers directly,
booleans and null/undefined by their keywords, arrays by the default
comma-join in which null and undefined elements print as empty, plain
objects by the standard object tag. -/
def jsToString : JSValue → String
  | .str s => s
  | .num n => intToDecString n
  | .bool true => "true"
  | .bool false => "false"
  | .null => "null"
  | .undef => "undefined"
  | .arr xs => joinStr "," (jsArrElems xs)
  | .obj _ => "[object Object]"

/-- jsArrElems is the element rendering of the default array join. -/
def jsArrElems : List JSValue → List String
  | [] => []
  | .null :: rest => "" :: jsArrElems rest
  | .undef :: rest => "" :: jsArrElems rest
  | v :: rest => jsToString v :: jsArrElems rest

end

mutual

/-- flattenRaw lists the leaf pairs of `flattenObject` from
src/serializer.ts in preorder, with dot-joined path keys: plain-object
values (and only those — arrays and null are leaves) are recursed into. -/
def flattenRaw : Obj → String → List (String × JSValue)
  | [], _ => []
  | (k, v) :: rest, pre =>
      flattenLeaf (if pre = "" then k else pre ++ "." ++ k) v ++ flattenRaw rest pre

/-- flattenLeaf handles one value of the flattening walk: recurse into a
plain object, otherwise emit the pair at the prefixed key. -/
def flattenLeaf (pk : String) : JSValue → List (String × JSValue)
  | .obj t => flattenRaw t pk
  | v => [(pk, v)]

end

/-- dedupAssign accumulates pairs into one object by assignment, which is
what building the accumulator object with `acc[key] = v` and
`Object.assign(acc, recursive-result)` amounts to: the last value of a
repeated key wins while the key keeps its first position. -/
def dedupAssign (xs : List (String × JSValue)) : List (String × JSValue) :=
  xs.foldl (fun acc kv => setV acc kv.1 kv.2) []

/-- flattenObject models `flattenObject` from src/serializer.ts: the object
whose entries are the preorder leaf pairs, deduplicated by assignment. -/
def flattenObject (o : Obj) : List (String × JSValue) :=
  dedupAssign (flattenRaw o "")

/-- validSerialize models serializeSchema: page and limit must be integers
of at least 1 when present; the sort, fields and filters shapes are enforced
by the types of this model, so only the numeric bounds can fail. -/
def validSerialize (o : QueryOptions) : Bool :=
  (match o.page with
   | some p => 1 ≤ p
   | none => true) &&
  (match o.limit with
   | some l => 1 ≤ l
   | none => true)

/-- serializeBaseParams is the first half of the parameter-building phase of
serializeQuery: page, limit, a truthy (nonempty) sort and a nonempty fields
join, in that insertion order. -/
def serializeBaseParams (options : QueryOptions) : List (String × String) :=
  let ps : List (String × String) := []
  let ps := match options.page with
    | some p => setV ps "page" (intToDecString p)
    | none => ps
  let ps := match options.limit with
    | some l => setV ps "limit" (intToDecString l)
    | none => ps
  let ps := match options.sort with
    | some s => if s ≠ "" then setV ps "sort" s else ps
    | none => ps
  match options.fields with
  | some fs => if fs.length > 0 then setV ps "fields" (joinStr "," fs) else ps
  | none => ps

/-- serializeParams models the parameter-building phase of serializeQuery:
after the base parameters, one `filters[path]` parameter per flattened
filter leaf whose value is neither undefined nor null, with the stringified
value.  The keys are pairwise distinct, so `URLSearchParams.set` is plain
insertion. -/
def serializeParams (options : QueryOptions) : List (String × String) :=
  match options.filters with
  | some f =>
      (flattenObject f).foldl
        (fun acc kv =>
          match kv.2 with
          | .undef => acc
          | .null => acc
          | v => setV acc ("filters[" ++ kv.1 ++ "]") (jsToString v))
        (serializeBaseParams options)
  | none => serializeBaseParams options

/-- hexCharUpper is the uppercase hexadecimal digit character. -/
def hexCharUpper (d : Nat) : Char :=
  match d with
  | 0 => '0' | 1 => '1' | 2 => '2' | 3 => '3' | 4 => '4'
  | 5 => '5' | 6 => '6' | 7 => '7' | 8 => '8' | 9 => '9'
  | 10 => 'A' | 11 => 'B' | 12 => 'C' | 13 => 'D' | 14 => 'E'
  | _ => 'F'

/-- utf8Bytes is the standard UTF-8 encoding of one character. -/
def utf8Bytes (c : Char) : List Nat :=
  let n := c.toNat
  if n < 0x80 then [n]
  else if n < 0x800 then [0xC0 + n / 64, 0x80 + n % 64]
  else if n < 0x10000 then [0xE0 + n / 4096, 0x80 + (n / 64) % 64, 0x80 + n % 64]
  else [0xF0 + n / 262144, 0x80 + (n / 4096) % 64, 0x80 + (n / 64) % 64, 0x80 + n % 64]

/-- encodeParamChar is the application/x-www-form-urlencoded encoding of one
character, as produced by `URLSearchParams.toString`: ASCII alphanumerics
and `*-._` stay, a space becomes `+`, everything else is percent-encoded
bytewise in uppercase hexadecimal. -/
def encodeParamChar (c : Char) : String :=
  if isWordChar c || c = '*' || c = '-' || c = '.' then ⟨[c]⟩
  else if c = ' ' then "+"
  else joinStr "" ((utf8Bytes c).map
    (fun b => ⟨['%', hexCharUpper (b / 16), hexCharUpper (b % 16)]⟩))

/-- encodeParam encodes a full key or value. -/
def encodeParam (s : String) : String :=
  joinStr "" (s.toList.map encodeParamChar)

/-- renderParams models `URLSearchParams.toString` on the built parameter
list. -/
def renderParams (ps : List (String × String)) : String :=
  joinStr "&" (ps.map (fun kv => encodeParam kv.1 ++ "=" ++ encodeParam kv.2))

/-- SerializerConfig mirrors the SerializerConfig interface of src/types.ts
(optional fields). -/
structure SerializerConfig where
  startWithQuestionMark : Option Bool := none
  prettyPrint : Option Bool := none
deriving Repr, BEq

/-- prettyPrintPass models the cosmetic replacement pass of serializeQuery. -/
def prettyPrintPass (s : String) : String :=
  ((((s.replace "&" "\n&").replace "%5B" "[").replace "%5D" "]").replace "%3A" ":").replace "%2C" ","

/-- serializeQuery models `serializeQuery` from src/serializer.ts: validate
the options (an aggregated failure throws, modelled by `Except.error`),
build and render the parameters, optionally pretty-print, and apply the
question-mark prefix rule (an empty parameter set yields `?` by default). -/
def serializeQuery (options : QueryOptions) (config : SerializerConfig := {}) :
    Except String String :=
  if validSerialize options then
    let qs := renderParams (serializeParams options)
    let qs := if config.prettyPrint.getD false && qs ≠ "" then prettyPrintPass qs else qs
    let swqm := config.startWithQuestionMark.getD true
    if qs = "" then .ok (if swqm then "?" else "")
    else .ok (if swqm then "?" ++ qs else qs)
  else .error "Query serialization failed"

/-- WhereStrategy lists the merge strategies for where conditions. -/
inductive WhereStrategy where
  | replace
  | spread
  | and
deriving Repr, BEq, DecidableEq

/-- MergeStrategy lists the merge strategies for select, include and omit. -/
inductive MergeStrategy where
  | replace
  | merge
deriving Repr, BEq, DecidableEq

/-- OrderByStrategy lists the merge strategies for orderBy. -/
inductive OrderByStrategy where
  | replace
  | prepend
  | append
deriving Repr, BEq, DecidableEq

/-- MergeQueryOptions mirrors MergeQueryOptions of src/merge.ts; absent
fields are represented by the destructuring defaults of the source. -/
structure MergeQueryOptions where
  whereStrategy : WhereStrategy := .spread
  selectStrategy : MergeStrategy := .merge
  includeStrategy : MergeStrategy := .merge
  orderByStrategy : OrderByStrategy := .prepend
  omitStrategy : MergeStrategy := .merge
deriving Repr, BEq, DecidableEq

/-- assignAll models the object spread `{ ...target, ...source }`. -/
def assignAll (target source : Obj) : Obj :=
  source.foldl (fun out kv => setV out kv.1 kv.2) target

mutual

/-- deepMergeAux is `deepMerge` from src/merge.ts with the accumulating
output separated from the fixed target the source checks read (the output
starts as a copy of the target, and JS object keys are unique, so reads of
`target[key]` and of the evolving output coincide). -/
def deepMergeAux (target out : Obj) : List (String × JSValue) → Obj
  | [] => out
  | (k, v) :: rest => deepMergeAux target (setV out k (deepMergeVal target k v)) rest

/-- deepMergeVal computes the merged value for one source entry: recurse
when both the source value and the target value at that key are plain
objects, otherwise the source value overwrites. -/
def deepMergeVal (target : Obj) (k : String) : JSValue → JSValue
  | .obj sv =>
      (match getV target k with
       | some (.obj tv) => .obj (deepMergeAux tv tv sv)
       | _ => .obj sv)
  | v => v

end

/-- deepMerge models `deepMerge` from src/merge.ts: a recursive merge in
which a source value overwrites unless both sides hold plain objects (the
`isObject` check excludes arrays and null), in which case the merge
recurses. -/
def deepMerge (target source : Obj) : Obj :=
  deepMergeAux target target source

/-- mergeWhere is the where-handling statement of mergeQueries: nothing when
the parsed query has no where, direct adoption when the accumulated result
has none, and otherwise the configured strategy (replace, a two-element AND
conjunction, or a top-level spread). -/
def mergeWhere (result : PrismaQuery) (pw? : Option Obj) (strat : WhereStrategy) :
    PrismaQuery :=
  match pw? with
  | none => result
  | some pw =>
      match result.where_ with
      | none => { result with where_ := some pw }
      | some bw =>
          match strat with
          | .replace => { result with where_ := some pw }
          | .and => { result with where_ := some [("AND", .arr [.obj bw, .obj pw])] }
          | .spread => { result with where_ := some (assignAll bw pw) }

/-- mergeSelect is the select-handling statement of mergeQueries. -/
def mergeSelect (result : PrismaQuery) (ps? : Option Obj) (strat : MergeStrategy) :
    PrismaQuery :=
  match ps? with
  | none => result
  | some psel =>
      match result.select with
      | none => { result with select := some psel }
      | some bsel =>
          match strat with
          | .replace => { result with select := some psel }
          | .merge => { result with select := some (deepMerge bsel psel) }

/-- mergeInclude is the include-handling statement of mergeQueries. -/
def mergeInclude (result : PrismaQuery) (pi? : Option Obj) (strat : MergeStrategy) :
    PrismaQuery :=
  match pi? with
  | none => result
  | some pinc =>
      match result.include_ with
      | none => { result with include_ := some pinc }
      | some binc =>
          match strat with
          | .replace => { result with include_ := some pinc }
          | .merge => { result with include_ := some (deepMerge binc pinc) }

/-- mergeOmit is the omit-handling statement of mergeQueries. -/
def mergeOmit (result : PrismaQuery) (po? : Option Obj) (strat : MergeStrategy) :
    PrismaQuery :=
  match po? with
  | none => result
  | some pom =>
      match result.omit_ with
      | none => { result with omit_ := some pom }
      | some bom =>
          match strat with
          | .replace => { result with omit_ := some pom }
          | .merge => { result with omit_ := some (deepMerge bom pom) }

/-- mergeOrderBy is the orderBy-handling statement of mergeQueries (the
source tests `parsedQuery.orderBy?.length` and `!result.orderBy ||
!result.orderBy.length`, so empty lists behave like absent ones). -/
def mergeOrderBy (result : PrismaQuery) (po? : Option (List (String × String)))
    (strat : OrderByStrategy) : PrismaQuery :=
  match po? with
  | none => result
  | some pord =>
      if pord.isEmpty then result
      else
        match result.orderBy with
        | none => { result with orderBy := some pord }
        | some bord =>
            if bord.isEmpty then { result with orderBy := some pord }
            else
              match strat with
              | .replace => { result with orderBy := some pord }
              | .append => { result with orderBy := some (bord ++ pord) }
              | .prepend => { result with orderBy := some (pord ++ bord) }

/-- mergePagination is the final pair of statements of mergeQueries: the
parsed skip and take always win when present. -/
def mergePagination (result : PrismaQuery) (skip? take? : Option Int) : PrismaQuery :=
  let result :=
    match skip? with
    | none => result
    | some s => { result with skip := some s }
  match take? with
  | none => result
  | some t => { result with take := some t }

/-- mergeQueries models `mergeQueries` from src/merge.ts: starting from a
copy of the default query, each field of the incoming (parsed) query is
combined according to the per-field strategy, fields absent from the
incoming query are left alone, and skip/take are always taken from the
incoming query when present. -/
def mergeQueries (defaultQuery parsedQuery : PrismaQuery)
    (options : MergeQueryOptions := {}) : PrismaQuery :=
  mergePagination
    (mergeOrderBy
      (mergeOmit
        (mergeInclude
          (mergeSelect
            (mergeWhere defaultQuery parsedQuery.where_ options.whereStrategy)
            parsedQuery.select options.selectStrategy)
          parsedQuery.include_ options.includeStrategy)
        parsedQuery.omit_ options.omitStrategy)
      parsedQuery.orderBy options.orderByStrategy)
    parsedQuery.skip parsedQuery.take

/-- keysOf lists the keys of an object in order. -/
def keysOf {α : Type} (o : List (String × α)) : List String :=
  o.map Prod.fst

/-- isFiltersKey recognizes keys that begin with the literal prefix
`filters[`. -/
def isFiltersKey (k : String) : Bool :=
  k.toList.take 8 = "filters[".toList

/-- notNullUndef is true for values other than null and undefined. -/
def notNullUndef : JSValue → Bool
  | .null => false
  | .undef => false
  | _ => true

/-- goodLeafB recognizes the coerced scalars that re-coerce to themselves
when stringified and parsed again: booleans and numbers always do, and a
string does unless it is a boolean or canonical-number literal (in which
case the original coercion would not have left it a string). -/
def goodLeafB : JSValue → Bool
  | .str s =>
      s ≠ "true" && s ≠ "false" &&
      (match jsNumParse s with
       | some n => decide (intToDecString n ≠ s)
       | none => true)
  | .num _ => true
  | .bool _ => true
  | _ => false

mutual

/-- whereShape states the tree-shape invariant of a where tree: every value
is a scalar leaf (string, number or boolean) or a plain nested object. -/
def whereShape : Obj → Bool
  | [] => true
  | (_, v) :: rest => whereVal v && whereShape rest

/-- whereVal is the per-value side of whereShape. -/
def whereVal : JSValue → Bool
  | .obj t => whereShape t
  | .str _ => true
  | .num _ => true
  | .bool _ => true
  | _ => false

end

mutual

/-- selectShape states the tree-shape invariant of a select tree: every
value is the boolean true or a wrapper object holding exactly a select
subtree. -/
def selectShape : Obj → Bool
  | [] => true
  | (_, v) :: rest => selectVal v && selectShape rest

/-- selectVal is the per-value side of selectShape. -/
def selectVal : JSValue → Bool
  | .bool true => true
  | .obj [("select", .obj t)] => selectShape t
  | _ => false

end

mutual

/-- canonW is the canonical-tree invariant of where trees built by the
parser from dot-separated filter paths with nonempty segments: keys are
nonempty, dot-free and pairwise distinct at every level, subtrees are
nonempty, and leaves re-coerce to themselves. -/
def canonW : Obj → Bool
  | [] => true
  | (k, v) :: rest =>
      k ≠ "" && !(k.toList.contains '.') && !((keysOf rest).contains k) &&
      canonVal v && canonW rest

/-- canonVal is the per-value side of canonW. -/
def canonVal : JSValue → Bool
  | .obj t => !t.isEmpty && canonW t
  | v => goodLeafB v

end

/-- dotPathOk accepts the dot-separated paths of the round-trip statement:
every dot-separated segment is nonempty (segments are dot-free by
construction of the split). -/
def dotPathOk (p : String) : Bool :=
  (splitStr '.' p).all (fun seg => seg ≠ "")

/-- rawFiltersOnly states that every key of a raw parameter map is a
`filters[path]` key whose captured path is a well-formed dot path. -/
def rawFiltersOnly (raw : List (String × String)) : Bool :=
  raw.all (fun kv =>
    match filterPath? kv.1 with
    | some p => dotPathOk p
    | none => false)

/-- reFilter is the reparse step for one serialized filter leaf: the pair
(filters[path], String(value)) fed back through the filter-detection loop. -/
def reFilter (a : Obj) (kv : String × JSValue) : Obj :=
  insFilter a ("filters[" ++ kv.1 ++ "]", jsToString kv.2)

/-- headSeg is the first dot-separated segment of a path. -/
def headSeg (p : String) : String :=
  (splitStr '.' p).headD ""

/-- innerObj is the object the nested-path walk descends into at a key: the
existing object value there, or a fresh empty object when the key is absent
or holds a non-object. -/
def innerObj (acc : Obj) (k : String) : Obj :=
  match getV acc k with
  | some (.obj u) => u
  | _ => []

/-- rawFilterKeysOk states that every key of a raw parameter map that
matches the filters pattern captures a well-formed dot path; keys not
matching the pattern are unconstrained. -/
def rawFilterKeysOk (raw : List (String × String)) : Bool :=
  raw.all (fun kv =>
    match filterPath? kv.1 with
    | some p => dotPathOk p
    | none => true)

/-! Association-list lemmas: lookup and assignment on JS objects. -/

theorem getV_setV_self {α : Type} (o : List (String × α)) (k : String) (v : α) :
    getV (setV o k v) k = some v := by
  induction o with
  | nil => simp [setV, getV]
  | cons hd tl ih =>
      obtain ⟨k1, v1⟩ := hd
      by_cases h : k1 = k <;> simp [setV, getV, h, ih]

theorem getV_setV_ne {α : Type} (o : List (String × α)) {k k' : String}
    (h : k' ≠ k) (v : α) : getV (setV o k v) k' = getV o k' := by
  induction o with
  | nil => simp [setV, getV, Ne.symm h]
  | cons hd tl ih =>
      obtain ⟨k1, v1⟩ := hd
      by_cases h1 : k1 = k
      · subst h1
        simp [setV, getV, Ne.symm h]
      · simp [setV, getV, h1, ih]

theorem getV_eq_none_iff {α : Type} (o : List (String × α)) (k : String) :
    getV o k = none ↔ k ∉ keysOf o := by
  induction o with
  | nil => simp [getV, keysOf]
  | cons hd tl ih =>
      obtain ⟨k1, v1⟩ := hd
      by_cases h : k1 = k
      · subst h
        simp [getV, keysOf]
      · simp [getV, keysOf, h, ih, Ne.symm h]

theorem setV_fresh {α : Type} {o : List (String × α)} {k : String}
    (h : getV o k = none) (v : α) : setV o k v = o ++ [(k, v)] := by
  induction o with
  | nil => simp [setV]
  | cons hd tl ih =>
      obtain ⟨k1, v1⟩ := hd
      by_cases h1 : k1 = k
      · subst h1
        simp [getV] at h
      · simp [getV, h1] at h
        simp [setV, h1, ih h]

theorem getV_append_left {α : Type} {o1 : List (String × α)} {k : String} {v : α}
    (o2 : List (String × α)) (h : getV o1 k = some v) :
    getV (o1 ++ o2) k = some v := by
  induction o1 with
  | nil => simp [getV] at h
  | cons hd tl ih =>
      obtain ⟨k1, v1⟩ := hd
      by_cases h1 : k1 = k <;> simp [getV, h1] at h ⊢ <;> simp_all [ih]

theorem getV_append_right {α : Type} {o1 : List (String × α)} {k : String}
    (o2 : List (String × α)) (h : getV o1 k = none) :
    getV (o1 ++ o2) k = getV o2 k := by
  induction o1 with
  | nil => simp
  | cons hd tl ih =>
      obtain ⟨k1, v1⟩ := hd
      by_cases h1 : k1 = k
      · simp [getV, h1] at h
      · simp [getV, h1] at h ⊢
        simp_all [ih]

theorem keysOf_setV {α : Type} (o : List (String × α)) (k : String) (v : α) :
    keysOf (setV o k v) = keysOf o ∨ keysOf (setV o k v) = keysOf o ++ [k] := by
  induction o with
  | nil => simp [setV, keysOf]
  | cons hd tl ih =>
      obtain ⟨k1, v1⟩ := hd
      by_cases h : k1 = k
      · left
        simp [setV, keysOf, h]
      · rcases ih with ih | ih
        · left
          simp only [setV, if_neg h, keysOf, List.map_cons] at ih ⊢
          rw [ih]
        · right
          simp only [setV, if_neg h, keysOf, List.map_cons] at ih ⊢
          rw [ih]
          simp

theorem setV_setV_self {α : Type} (o : List (String × α)) (k : String) (v w : α) :
    setV (setV o k v) k w = setV o k w := by
  induction o with
  | nil => simp [setV]
  | cons hd tl ih =>
      obtain ⟨k1, v1⟩ := hd
      by_cases h : k1 = k <;> simp [setV, h, ih]

/-! Split and join lemmas. -/

theorem splitCharList_ne_nil (sep : Char) (l : List Char) :
    splitCharList sep l ≠ [] := by
  induction l with
  | nil => simp [splitCharList]
  | cons c cs ih =>
      simp only [splitCharList]
      by_cases h : c = sep
      · simp [h]
      · simp only [if_neg h]
        cases hr : splitCharList sep cs with
        | nil => exact absurd hr ih
        | cons a b => simp

theorem splitCharList_no_sep {sep : Char} {l : List Char}
    (h : ∀ c ∈ l, c ≠ sep) : splitCharList sep l = [l] := by
  induction l with
  | nil => simp [splitCharList]
  | cons c cs ih =>
      have hc : c ≠ sep := h c (by simp)
      have ih' := ih (fun x hx => h x (by simp [hx]))
      simp [splitCharList, hc, ih']

theorem splitCharList_sep_mid {sep : Char} {l1 : List Char} (l2 : List Char)
    (h : ∀ c ∈ l1, c ≠ sep) :
    splitCharList sep (l1 ++ sep :: l2) = l1 :: splitCharList sep l2 := by
  induction l1 with
  | nil => simp [splitCharList]
  | cons c cs ih =>
      have hc : c ≠ sep := h c (by simp)
      have ih' := ih (fun x hx => h x (by simp [hx]))
      simp [splitCharList, hc, ih']

theorem mem_splitCharList_no_sep {sep : Char} {l : List Char} :
    ∀ piece ∈ splitCharList sep l, sep ∉ piece := by
  induction l with
  | nil => simp [splitCharList]
  | cons c cs ih =>
      intro piece hp
      simp only [splitCharList] at hp
      by_cases h : c = sep
      · simp [h] at hp
        rcases hp with hp | hp
        · simp [hp]
        · exact ih piece hp
      · simp only [if_neg h] at hp
        cases hr : splitCharList sep cs with
        | nil => exact absurd hr (splitCharList_ne_nil sep cs)
        | cons a b =>
            rw [hr] at hp
            simp at hp
            rcases hp with hp | hp
            · subst hp
              have ha : sep ∉ a := ih a (by rw [hr]; simp)
              intro hx
              rcases List.mem_cons.mp hx with h0 | h0
              · exact h h0.symm
              · exact ha h0
            · exact ih piece (by rw [hr]; simp [hp])

theorem string_mk_append (l1 l2 : List Char) :
    (⟨l1⟩ : String) ++ (⟨l2⟩ : String) = ⟨l1 ++ l2⟩ := rfl

theorem string_toList_mk (l : List Char) : (String.mk l).toList = l := rfl

theorem string_mk_toList (s : String) : (⟨s.toList⟩ : String) = s := by
  cases s
  rfl

theorem string_toList_append (a b : String) :
    (a ++ b).toList = a.toList ++ b.toList := by
  cases a
  cases b
  rfl

theorem splitStr_joinStr {sep : Char} (segs : List String) (h : segs ≠ [])
    (hall : ∀ s ∈ segs, sep ∉ s.toList) :
    splitStr sep (joinStr ⟨[sep]⟩ segs) = segs := by
  induction segs with
  | nil => exact absurd rfl h
  | cons x rest ih =>
      have hx : ∀ c ∈ x.toList, c ≠ sep := by
        intro c hc heq
        exact hall x (by simp) (heq ▸ hc)
      cases rest with
      | nil =>
          unfold splitStr
          rw [show (joinStr ⟨[sep]⟩ [x]).toList = x.toList from rfl,
            splitCharList_no_sep hx]
          simp [string_mk_toList]
      | cons y rest' =>
          have ih' := ih (by simp) (fun s hs => hall s (List.mem_cons_of_mem _ hs))
          have htl : (joinStr ⟨[sep]⟩ (x :: y :: rest')).toList
              = x.toList ++ sep :: (joinStr ⟨[sep]⟩ (y :: rest')).toList := by
            show ((x ++ ⟨[sep]⟩) ++ joinStr ⟨[sep]⟩ (y :: rest')).toList = _
            rw [string_toList_append, string_toList_append]
            simp [string_toList_mk]
          unfold splitStr
          rw [htl, splitCharList_sep_mid _ hx]
          simp only [List.map_cons, string_mk_toList]
          unfold splitStr at ih'
          rw [ih']

/-! Decimal print/parse round-trip lemmas. -/

theorem charToDigit_decChar {d : Nat} (h : d < 10) : charToDigit (decChar d) = d := by
  interval_cases d <;> rfl

theorem isDigitChar_decChar {d : Nat} (h : d < 10) : isDigitChar (decChar d) = true := by
  interval_cases d <;> rfl

theorem isDigitChar_ne_minus {c : Char} (h : isDigitChar c = true) : c ≠ '-' := by
  intro he
  subst he
  simp [isDigitChar] at h

theorem digitsVal_append_one (l : List Char) (c : Char) :
    digitsVal (l ++ [c]) = digitsVal l * 10 + charToDigit c := by
  simp [digitsVal, List.foldl_append]

theorem natDecAux_spec :
    ∀ fuel n, n < fuel →
      natDecAux fuel n ≠ [] ∧ (natDecAux fuel n).all isDigitChar = true ∧
        digitsVal (natDecAux fuel n) = n := by
  intro fuel
  induction fuel with
  | zero => omega
  | succ f ih =>
      intro n hn
      by_cases h : n < 10
      · refine ⟨by simp [natDecAux, h], ?_, ?_⟩
        · simp [natDecAux, h, isDigitChar_decChar]
        · simp [natDecAux, h, digitsVal, charToDigit_decChar]
      · have hdiv : n / 10 < f := by
          have h1 : n / 10 < n := Nat.div_lt_self (by omega) (by omega)
          omega
        obtain ⟨h1, h2, h3⟩ := ih (n / 10) hdiv
        have hmod : n % 10 < 10 := Nat.mod_lt _ (by omega)
        refine ⟨by simp [natDecAux, h], ?_, ?_⟩
        · simp only [natDecAux, if_neg h, List.all_append]
          simp [h2, isDigitChar_decChar hmod]
        · simp only [natDecAux, if_neg h]
          rw [digitsVal_append_one, h3, charToDigit_decChar hmod]
          omega

theorem decDigits?_of_digits {l : List Char} (h1 : l ≠ [])
    (h2 : l.all isDigitChar = true) : decDigits? l = some (digitsVal l) := by
  simp [decDigits?, h1, h2]

theorem natToDecString_toList_spec (n : Nat) :
    (natToDecString n).toList ≠ [] ∧
      (natToDecString n).toList.all isDigitChar = true ∧
      digitsVal (natToDecString n).toList = n := by
  have := natDecAux_spec (n + 1) n (by omega)
  simpa [natToDecString, string_toList_mk] using this

theorem jsNumParse_natToDecString (n : Nat) :
    jsNumParse (natToDecString n) = some (n : Int) := by
  obtain ⟨hne, hall, hval⟩ := natToDecString_toList_spec n
  have hhead : (natToDecString n).toList.head? ≠ some '-' := by
    cases hL : (natToDecString n).toList with
    | nil => simp
    | cons c cs =>
        rw [hL] at hall
        have hc : isDigitChar c = true := by
          simp [List.all_cons] at hall
          exact hall.1
        simp [isDigitChar_ne_minus hc]
  unfold jsNumParse
  rw [if_neg hhead, decDigits?_of_digits hne hall, hval]
  rfl

theorem jsNumParse_intToDecString (i : Int) :
    jsNumParse (intToDecString i) = some i := by
  by_cases h : i < 0
  · have hi : intToDecString i = "-" ++ natToDecString i.natAbs := by
      simp [intToDecString, h]
    obtain ⟨hne, hall, hval⟩ := natToDecString_toList_spec i.natAbs
    have htl : (intToDecString i).toList = '-' :: (natToDecString i.natAbs).toList := by
      rw [hi, string_toList_append]
      rfl
    unfold jsNumParse
    rw [htl]
    simp only [List.head?_cons, List.tail_cons, if_pos rfl]
    rw [decDigits?_of_digits hne hall, hval]
    show some (-(i.natAbs : Int)) = some i
    congr 1
    omega
  · have hi : intToDecString i = natToDecString i.toNat := by
      simp [intToDecString, h]
    rw [hi, jsNumParse_natToDecString]
    congr 1
    omega

theorem intToDecString_ne_true_false (i : Int) :
    intToDecString i ≠ "true" ∧ intToDecString i ≠ "false" := by
  by_cases h : i < 0
  · have hi : intToDecString i = "-" ++ natToDecString i.natAbs := by
      simp [intToDecString, h]
    constructor <;>
      · intro he
        have := congrArg String.toList he
        rw [hi, string_toList_append] at this
        rw [show ("-" : String).toList = ['-'] from rfl] at this
        simp at this
  · have hi : intToDecString i = natToDecString i.toNat := by
      simp [intToDecString, h]
    obtain ⟨hne, hall, hval⟩ := natToDecString_toList_spec i.toNat
    constructor <;>
      · intro he
        have hteq := congrArg String.toList he
        rw [hi] at hteq
        rw [hteq] at hall
        simp [isDigitChar] at hall

theorem cvt_print (n : Int) :
    convertValueType (.str (intToDecString n)) = .num n := by
  obtain ⟨h1, h2⟩ := intToDecString_ne_true_false n
  simp only [convertValueType, if_neg h1, if_neg h2, jsNumParse_intToDecString]
  simp

/-! Merge step characterizations: each step changes only its own field. -/

theorem mergeWhere_eq (r : PrismaQuery) (pw? : Option Obj) (strat : WhereStrategy) :
    mergeWhere r pw? strat = { r with where_ := (mergeWhere r pw? strat).where_ } := by
  cases pw? with
  | none => rfl
  | some pw => cases hr : r.where_ <;> cases strat <;> simp [mergeWhere, hr]

theorem mergeSelect_eq (r : PrismaQuery) (ps? : Option Obj) (strat : MergeStrategy) :
    mergeSelect r ps? strat = { r with select := (mergeSelect r ps? strat).select } := by
  cases ps? with
  | none => rfl
  | some ps => cases hr : r.select <;> cases strat <;> simp [mergeSelect, hr]

theorem mergeInclude_eq (r : PrismaQuery) (pi? : Option Obj) (strat : MergeStrategy) :
    mergeInclude r pi? strat = { r with include_ := (mergeInclude r pi? strat).include_ } := by
  cases pi? with
  | none => rfl
  | some pv => cases hr : r.include_ <;> cases strat <;> simp [mergeInclude, hr]

theorem mergeOmit_eq (r : PrismaQuery) (po? : Option Obj) (strat : MergeStrategy) :
    mergeOmit r po? strat = { r with omit_ := (mergeOmit r po? strat).omit_ } := by
  cases po? with
  | none => rfl
  | some pv => cases hr : r.omit_ <;> cases strat <;> simp [mergeOmit, hr]

theorem mergeOrderBy_eq (r : PrismaQuery) (po? : Option (List (String × String)))
    (strat : OrderByStrategy) :
    mergeOrderBy r po? strat = { r with orderBy := (mergeOrderBy r po? strat).orderBy } := by
  cases po? with
  | none => rfl
  | some pord =>
      by_cases hp : pord.isEmpty
      · simp [mergeOrderBy, hp]
      · cases hr : r.orderBy with
        | none => simp [mergeOrderBy, hp, hr]
        | some bord =>
            by_cases hb : bord.isEmpty <;> cases strat <;> simp [mergeOrderBy, hp, hb, hr]

theorem mergePagination_eq (r : PrismaQuery) (sk? tk? : Option Int) :
    mergePagination r sk? tk? =
      { r with skip := (mergePagination r sk? tk?).skip,
               take := (mergePagination r sk? tk?).take } := by
  cases sk? <;> cases tk? <;> rfl

theorem mergePagination_skip_none (r : PrismaQuery) (tk? : Option Int) :
    (mergePagination r none tk?).skip = r.skip := by
  cases tk? <;> rfl

theorem mergePagination_take_none (r : PrismaQuery) (sk? : Option Int) :
    (mergePagination r sk? none).take = r.take := by
  cases sk? <;> rfl

theorem setV_ne_nil {α : Type} (o : List (String × α)) (k : String) (v : α) :
    setV o k v ≠ [] := by
  cases o with
  | nil => simp [setV]
  | cons hd tl =>
      obtain ⟨k1, v1⟩ := hd
      by_cases h : k1 = k <;> simp [setV, h]

theorem mergeErrors_ne_nil_of_base {b : List (String × String)}
    (m : List (String × String)) (h : b ≠ []) : mergeErrors b m ≠ [] := by
  induction m generalizing b with
  | nil => simpa [mergeErrors]
  | cons x xs ih =>
      show mergeErrors (setV b x.1 x.2) xs ≠ []
      exact ih (setV_ne_nil _ _ _)

theorem mergeErrors_eq_nil_iff (b m : List (String × String)) :
    mergeErrors b m = [] ↔ b = [] ∧ m = [] := by
  constructor
  · intro h
    constructor
    · by_contra hb
      exact mergeErrors_ne_nil_of_base m hb h
    · cases m with
      | nil => rfl
      | cons x xs =>
          exfalso
          have : mergeErrors (setV b x.1 x.2) xs ≠ [] :=
            mergeErrors_ne_nil_of_base xs (setV_ne_nil _ _ _)
          exact this h
  · rintro ⟨rfl, rfl⟩
    rfl

/-! Claim theorems. -/

/-- C4: parseQuery on the raw map {page: abc, limit: -10, sort: invalid::format}
fails with success false, empty data, and an errors mapping whose key set is
exactly page, limit and sort — all simultaneous field violations are reported
together and no other error key is present. -/
theorem validation_error_aggregation :
    (parseQuery [("page", "abc"), ("limit", "-10"), ("sort", "invalid::format")]).success = false ∧
    (parseQuery [("page", "abc"), ("limit", "-10"), ("sort", "invalid::format")]).data = {} ∧
    (parseQuery [("page", "abc"), ("limit", "-10"), ("sort", "invalid::format")]).errors.map Prod.fst
      = ["page", "limit", "sort"] :=
  ⟨rfl, rfl, rfl⟩

/-- C6: under the and strategy, when both sides carry a where object the
merged where is exactly the two-element conjunction under the AND key, and
when the base has no where the incoming where is adopted directly, not
wrapped. -/
theorem merge_and_strategy (base inc : PrismaQuery) (opts : MergeQueryOptions)
    (hopts : opts.whereStrategy = .and) :
    (∀ bw iw, base.where_ = some bw → inc.where_ = some iw →
      (mergeQueries base inc opts).where_ = some [("AND", .arr [.obj bw, .obj iw])]) ∧
    (∀ iw, base.where_ = none → inc.where_ = some iw →
      (mergeQueries base inc opts).where_ = some iw) := by
  constructor
  · intro bw iw hb hi
    rw [mergeQueries, mergePagination_eq, mergeOrderBy_eq, mergeOmit_eq,
      mergeInclude_eq, mergeSelect_eq]
    simp only [hi, mergeWhere, hb, hopts]
  · intro iw hb hi
    rw [mergeQueries, mergePagination_eq, mergeOrderBy_eq, mergeOmit_eq,
      mergeInclude_eq, mergeSelect_eq]
    simp only [hi, mergeWhere, hb]

/-- C6 witness: the soft-delete example of the specification. -/
theorem merge_and_strategy_witness :
    (mergeQueries { where_ := some [("deletedAt", .null)] }
        { where_ := some [("status", .str "active")] }
        { whereStrategy := .and }).where_
      = some [("AND", .arr [.obj [("deletedAt", .null)], .obj [("status", .str "active")]])] :=
  (merge_and_strategy { where_ := some [("deletedAt", .null)] }
      { where_ := some [("status", .str "active")] }
      { whereStrategy := .and } rfl).1
    [("deletedAt", .null)] [("status", .str "active")] rfl rfl

/-- C7: a field absent from the incoming query never alters the
corresponding field of the result (and absent skip/take keep the base
values); in particular merging with an entirely empty incoming query
returns the base unchanged, for every combination of strategies. -/
theorem merge_frame_identity (base inc : PrismaQuery) (opts : MergeQueryOptions) :
    (inc.where_ = none → (mergeQueries base inc opts).where_ = base.where_) ∧
    (inc.select = none → (mergeQueries base inc opts).select = base.select) ∧
    (inc.include_ = none → (mergeQueries base inc opts).include_ = base.include_) ∧
    (inc.omit_ = none → (mergeQueries base inc opts).omit_ = base.omit_) ∧
    (inc.orderBy = none → (mergeQueries base inc opts).orderBy = base.orderBy) ∧
    (inc.skip = none → (mergeQueries base inc opts).skip = base.skip) ∧
    (inc.take = none → (mergeQueries base inc opts).take = base.take) ∧
    mergeQueries base {} opts = base := by
  refine ⟨?_, ?_, ?_, ?_, ?_, ?_, ?_, rfl⟩
  · intro h
    rw [mergeQueries, mergePagination_eq, mergeOrderBy_eq, mergeOmit_eq,
      mergeInclude_eq, mergeSelect_eq, h]
    rfl
  · intro h
    rw [mergeQueries, h, mergePagination_eq, mergeOrderBy_eq, mergeOmit_eq,
      mergeInclude_eq, mergeWhere_eq]
    rfl
  · intro h
    rw [mergeQueries, h, mergePagination_eq, mergeOrderBy_eq, mergeOmit_eq,
      mergeSelect_eq, mergeWhere_eq]
    rfl
  · intro h
    rw [mergeQueries, h, mergePagination_eq, mergeOrderBy_eq,
      mergeInclude_eq, mergeSelect_eq, mergeWhere_eq]
    rfl
  · intro h
    rw [mergeQueries, h, mergePagination_eq,
      mergeOmit_eq, mergeInclude_eq, mergeSelect_eq, mergeWhere_eq]
    rfl
  · intro h
    rw [mergeQueries, h, mergePagination_skip_none,
      mergeOrderBy_eq, mergeOmit_eq, mergeInclude_eq, mergeSelect_eq, mergeWhere_eq]
  · intro h
    rw [mergeQueries, h, mergePagination_take_none,
      mergeOrderBy_eq, mergeOmit_eq, mergeInclude_eq, mergeSelect_eq, mergeWhere_eq]

theorem parseQuery_success_parts (raw : List (String × String))
    (h : (parseQuery raw).success = true) :
    (extractOptions raw).2 = [] ∧ validateQuery (extractOptions raw).1 = [] ∧
      ∃ d, projectQuery (extractOptions raw).1 = .ok d ∧ (parseQuery raw).data = d := by
  have herrs : mergeErrors (extractOptions raw).2 (validateQuery (extractOptions raw).1) = [] := by
    by_contra hne
    simp only [parseQuery] at h
    rw [if_pos hne] at h
    simp at h
  obtain ⟨hex2, hval⟩ := (mergeErrors_eq_nil_iff _ _).mp herrs
  refine ⟨hex2, hval, ?_⟩
  have hnn : ¬ mergeErrors (extractOptions raw).2 (validateQuery (extractOptions raw).1) ≠ [] :=
    fun hh => hh herrs
  cases hpq : projectQuery (extractOptions raw).1 with
  | error e =>
      exfalso
      simp only [parseQuery] at h
      rw [if_neg hnn, hpq] at h
      simp at h
  | ok d =>
      refine ⟨d, rfl, ?_⟩
      simp only [parseQuery]
      rw [if_neg hnn, hpq]

theorem projectQuery_ok {q : QueryOptions} {d : PrismaQuery}
    (hpq : projectQuery q = .ok d) :
    d.skip = (paginationOf q.page q.limit).1 ∧
    d.take = (paginationOf q.page q.limit).2 ∧
    d.select = selectOf q.fields ∧
    d.where_ = whereOf q.filters ∧
    ∃ ob, sortProjection q.sort = .ok ob ∧ d.orderBy = ob := by
  unfold projectQuery at hpq
  cases hso : sortProjection q.sort with
  | error e =>
      rw [hso] at hpq
      exact absurd hpq (by simp)
  | ok ob =>
      rw [hso] at hpq
      injection hpq with h
      rw [← h]
      exact ⟨rfl, rfl, rfl, rfl, ob, rfl, rfl⟩

/-- C2: pagination derivation — on every successful parse, supplying both
page and limit yields skip = (page-1)*limit and take = limit, supplying only
limit yields take = limit with no skip, and supplying only page yields
neither skip nor take. -/
theorem pagination_derivation (raw : List (String × String))
    (h : (parseQuery raw).success = true) :
    ((getV raw "page").isSome = true → (getV raw "limit").isSome = true →
      ∃ p l, (extractOptions raw).1.page = some p ∧ (extractOptions raw).1.limit = some l ∧
        (parseQuery raw).data.skip = some ((p - 1) * l) ∧
        (parseQuery raw).data.take = some l) ∧
    (getV raw "page" = none → (getV raw "limit").isSome = true →
      ∃ l, (extractOptions raw).1.limit = some l ∧
        (parseQuery raw).data.take = some l ∧ (parseQuery raw).data.skip = none) ∧
    ((getV raw "page").isSome = true → getV raw "limit" = none →
      (parseQuery raw).data.skip = none ∧ (parseQuery raw).data.take = none) := by
  obtain ⟨hex2, hval, d, hpq, hd⟩ := parseQuery_success_parts raw h
  refine ⟨?_, ?_, ?_⟩
  · intro hp hl
    obtain ⟨ps, hps⟩ := Option.isSome_iff_exists.mp hp
    obtain ⟨ls, hls⟩ := Option.isSome_iff_exists.mp hl
    cases hpi : parseIntJS ps with
    | none => simp [extractOptions, hps, hpi] at hex2
    | some p =>
        cases hli : parseIntJS ls with
        | none => simp [extractOptions, hps, hls, hpi, hli] at hex2
        | some l =>
            have hqp : (extractOptions raw).1.page = some p := by
              simp [extractOptions, hps, hpi]
            have hql : (extractOptions raw).1.limit = some l := by
              simp [extractOptions, hls, hli]
            have hp1 : ¬ p < 1 := by
              intro hlt
              simp [validateQuery, hqp, hql, hlt] at hval
            have hl1 : ¬ l < 1 := by
              intro hlt
              simp [validateQuery, hqp, hql, hlt] at hval
            obtain ⟨hsk, htk, -, -, -⟩ := projectQuery_ok hpq
            rw [hqp, hql] at hsk htk
            rw [show paginationOf (some p) (some l) = (some ((p - 1) * l), some l) by
              simp [paginationOf]; intro h0; omega] at hsk htk
            exact ⟨p, l, hqp, hql, by rw [hd, hsk], by rw [hd, htk]⟩
  · intro hp hl
    obtain ⟨ls, hls⟩ := Option.isSome_iff_exists.mp hl
    cases hli : parseIntJS ls with
    | none => simp [extractOptions, hp, hls, hli] at hex2
    | some l =>
        have hqp : (extractOptions raw).1.page = none := by
          simp [extractOptions, hp]
        have hql : (extractOptions raw).1.limit = some l := by
          simp [extractOptions, hls, hli]
        have hl1 : ¬ l < 1 := by
          intro hlt
          simp [validateQuery, hqp, hql, hlt] at hval
        obtain ⟨hsk, htk, -, -, -⟩ := projectQuery_ok hpq
        rw [hqp, hql] at hsk htk
        rw [show paginationOf none (some l) = (none, some l) by
          simp [paginationOf]; omega] at hsk htk
        exact ⟨l, hql, by rw [hd, htk], by rw [hd, hsk]⟩
  · intro hp hl
    have hql : (extractOptions raw).1.limit = none := by
      simp [extractOptions, hl]
    obtain ⟨ps, hps⟩ := Option.isSome_iff_exists.mp hp
    cases hpi : parseIntJS ps with
    | none => simp [extractOptions, hps, hpi] at hex2
    | some p =>
        have hqp : (extractOptions raw).1.page = some p := by
          simp [extractOptions, hps, hpi]
        obtain ⟨hsk, htk, -, -, -⟩ := projectQuery_ok hpq
        rw [hqp, hql] at hsk htk
        rw [show paginationOf (some p) none = (none, none) from rfl] at hsk htk
        exact ⟨by rw [hd, hsk], by rw [hd, htk]⟩

/-- C2 witness: page 2 with limit 10 gives skip 10 and take 10; limit alone
gives only take; page alone gives neither. -/
theorem pagination_derivation_witness :
    (∃ p l, (extractOptions [("page", "2"), ("limit", "10")]).1.page = some p ∧
      (extractOptions [("page", "2"), ("limit", "10")]).1.limit = some l ∧
      (parseQuery [("page", "2"), ("limit", "10")]).data.skip = some ((p - 1) * l) ∧
      (parseQuery [("page", "2"), ("limit", "10")]).data.take = some l) ∧
    (parseQuery [("page", "2")]).data.skip = none ∧
    (parseQuery [("page", "2")]).data.take = none :=
  ⟨(pagination_derivation [("page", "2"), ("limit", "10")] rfl).1 rfl rfl,
   (pagination_derivation [("page", "2")] rfl).2.2 rfl rfl⟩

theorem getV_append_one_ne {α : Type} (l : List (String × α)) {k name : String}
    (h : k ≠ name) (v : α) : getV (l ++ [(k, v)]) name = getV l name := by
  cases hg : getV l name with
  | some w => exact getV_append_left _ hg
  | none =>
      rw [getV_append_right _ hg]
      simp [getV, h]

/-- C10: unrecognized keys are inert — extending a raw parameter map with a
key that is none of page, limit, sort, fields and does not match the
filters[...] pattern yields a parse result equal to that of the original
map, whatever the value. -/
theorem unrecognized_keys_inert (raw : List (String × String)) (k v : String)
    (hk : k ≠ "page" ∧ k ≠ "limit" ∧ k ≠ "sort" ∧ k ≠ "fields" ∧ filterPath? k = none) :
    parseQuery (raw ++ [(k, v)]) = parseQuery raw := by
  have h1 := getV_append_one_ne raw hk.1 v
  have h2 := getV_append_one_ne raw hk.2.1 v
  have h3 := getV_append_one_ne raw hk.2.2.1 v
  have h4 := getV_append_one_ne raw hk.2.2.2.1 v
  have hbf : buildFilters (raw ++ [(k, v)]) = buildFilters raw := by
    simp [buildFilters, List.foldl_append, insFilter, hk.2.2.2.2]
  have hex : extractOptions (raw ++ [(k, v)]) = extractOptions raw := by
    simp only [extractOptions, h1, h2, h3, h4, hbf]
  simp only [parseQuery, hex]

/-- C10 witness: an unknown key with an arbitrary value changes nothing. -/
theorem unrecognized_keys_inert_witness :
    parseQuery ([("limit", "3")] ++ [("foo", "bar")]) = parseQuery [("limit", "3")] :=
  unrecognized_keys_inert [("limit", "3")] "foo" "bar"
    ⟨by decide, by decide, by decide, by decide, rfl⟩

theorem keysOf_setV_cases {α : Type} (o : List (String × α)) (k : String) (v : α) :
    (k ∈ keysOf o ∧ keysOf (setV o k v) = keysOf o) ∨
    (k ∉ keysOf o ∧ keysOf (setV o k v) = keysOf o ++ [k]) := by
  induction o with
  | nil => right; simp [setV, keysOf]
  | cons hd tl ih =>
      obtain ⟨k1, v1⟩ := hd
      by_cases h : k1 = k
      · subst h
        left
        simp [setV, keysOf]
      · rcases ih with ⟨hin, heq⟩ | ⟨hnin, heq⟩
        · left
          refine ⟨List.mem_cons_of_mem _ hin, ?_⟩
          simp only [setV, if_neg h]
          show k1 :: keysOf (setV tl k v) = k1 :: keysOf tl
          rw [heq]
        · right
          refine ⟨?_, ?_⟩
          · intro hmem
            rcases List.mem_cons.mp hmem with h1 | h1
            · exact h h1.symm
            · exact hnin h1
          · simp only [setV, if_neg h]
            show k1 :: keysOf (setV tl k v) = (k1 :: keysOf tl) ++ [k]
            rw [heq]
            rfl

theorem mem_keysOf_setV {α : Type} (o : List (String × α)) (k : String) (v : α)
    (a : String) : a ∈ keysOf (setV o k v) ↔ a = k ∨ a ∈ keysOf o := by
  rcases keysOf_setV_cases o k v with ⟨hin, heq⟩ | ⟨hnin, heq⟩
  · rw [heq]
    constructor
    · tauto
    · rintro (rfl | ha)
      · exact hin
      · exact ha
  · rw [heq]
    simp [List.mem_append]
    tauto

theorem keysOf_nodup_setV {α : Type} (o : List (String × α)) (k : String) (v : α)
    (h : (keysOf o).Nodup) : (keysOf (setV o k v)).Nodup := by
  induction o with
  | nil => simp [setV, keysOf]
  | cons hd tl ih =>
      obtain ⟨k1, v1⟩ := hd
      simp only [keysOf, List.map_cons, List.nodup_cons] at h
      by_cases he : k1 = k
      · subst he
        simpa [setV, keysOf, List.nodup_cons] using h
      · have htl := ih h.2
        simp only [setV, if_neg he, keysOf, List.map_cons, List.nodup_cons]
        refine ⟨?_, htl⟩
        intro hmem
        rcases (mem_keysOf_setV tl k v k1).mp hmem with h1 | h1
        · exact he h1
        · exact h.1 h1

theorem dedupAssign_keys_nodup (xs : List (String × JSValue)) :
    (keysOf (dedupAssign xs)).Nodup := by
  have hgen : ∀ (ys : List (String × JSValue)) (acc : Obj), (keysOf acc).Nodup →
      (keysOf (ys.foldl (fun a kv => setV a kv.1 kv.2) acc)).Nodup := by
    intro ys
    induction ys with
    | nil => intro acc h; simpa
    | cons kv ys' ih =>
        intro acc h
        exact ih _ (keysOf_nodup_setV _ _ _ h)
  exact hgen xs [] (by simp [keysOf])

theorem filtersKey_inj {a b : String}
    (h : "filters[" ++ a ++ "]" = "filters[" ++ b ++ "]") : a = b := by
  have h1 := congrArg String.toList h
  rw [string_toList_append, string_toList_append,
    string_toList_append, string_toList_append] at h1
  have h2 := List.append_cancel_right h1
  have h3 := List.append_cancel_left h2
  have h4 := congrArg (fun l => (⟨l⟩ : String)) h3
  simpa [string_mk_toList] using h4

theorem filtersKey_toList (p : String) :
    ("filters[" ++ p ++ "]").toList = "filters[".toList ++ p.toList ++ [']'] := by
  rw [string_toList_append, string_toList_append]
  rfl

theorem filtersKey_ne_base (p : String) :
    "filters[" ++ p ++ "]" ≠ "page" ∧ "filters[" ++ p ++ "]" ≠ "limit" ∧
    "filters[" ++ p ++ "]" ≠ "sort" ∧ "filters[" ++ p ++ "]" ≠ "fields" := by
  have hlen : ("filters[" ++ p ++ "]").toList.length = 9 + p.toList.length := by
    rw [filtersKey_toList]
    simp [List.length_append]
    omega
  refine ⟨?_, ?_, ?_, ?_⟩ <;>
    · intro he
      have := congrArg (fun s => s.toList.length) he
      simp only at this
      rw [hlen] at this
      simp at this
      omega

theorem isFiltersKey_mk (p : String) :
    isFiltersKey ("filters[" ++ p ++ "]") = true := by
  unfold isFiltersKey
  rw [filtersKey_toList, List.append_assoc]
  rw [show (8 : Nat) = ("filters[".toList).length from rfl, List.take_left]
  simp

theorem serializeBaseParams_keys (opts : QueryOptions) :
    ∀ k ∈ keysOf (serializeBaseParams opts),
      k = "page" ∨ k = "limit" ∨ k = "sort" ∨ k = "fields" := by
  intro k hk
  unfold serializeBaseParams at hk
  cases hp : opts.page <;> cases hl : opts.limit <;>
    cases hs : opts.sort <;> cases hf : opts.fields <;>
    simp only [hp, hl, hs, hf] at hk
  all_goals
    (try split_ifs at hk) <;> (repeat rw [mem_keysOf_setV] at hk) <;>
      (try simp [keysOf] at hk) <;> tauto

theorem foldl_filters_append (xs : List (String × JSValue)) :
    ∀ ps : List (String × String),
      (keysOf xs).Nodup →
      (∀ kv ∈ xs, ("filters[" ++ kv.1 ++ "]") ∉ keysOf ps) →
      xs.foldl (fun acc kv =>
          match kv.2 with
          | .undef => acc
          | .null => acc
          | v => setV acc ("filters[" ++ kv.1 ++ "]") (jsToString v)) ps
        = ps ++ (xs.filter (fun kv => notNullUndef kv.2)).map
            (fun kv => ("filters[" ++ kv.1 ++ "]", jsToString kv.2)) := by
  induction xs with
  | nil =>
      intro ps _ _
      simp
  | cons kv xs' ih =>
      intro ps hnd hfresh
      obtain ⟨k, v⟩ := kv
      simp only [keysOf, List.map_cons, List.nodup_cons] at hnd
      have hknotin : k ∉ keysOf xs' := hnd.1
      have hnd' : (keysOf xs').Nodup := hnd.2
      have hfresh' : ∀ kv ∈ xs', ("filters[" ++ kv.1 ++ "]") ∉ keysOf ps :=
        fun kv hkv => hfresh kv (List.mem_cons_of_mem _ hkv)
      have hk0 : ("filters[" ++ k ++ "]") ∉ keysOf ps :=
        hfresh _ (List.mem_cons_self _ _)
      have hfr : ∀ (val : String), ∀ kv ∈ xs',
          ("filters[" ++ kv.1 ++ "]") ∉ keysOf (ps ++ [("filters[" ++ k ++ "]", val)]) := by
        intro val kv hkv hmem
        rw [keysOf, List.map_append] at hmem
        rcases List.mem_append.mp hmem with hmem | hmem
        · exact hfresh' kv hkv hmem
        · simp at hmem
          exact hknotin ((filtersKey_inj hmem) ▸ List.mem_map_of_mem Prod.fst hkv)
      cases v with
      | null =>
          simp only [List.foldl_cons]
          rw [ih ps hnd' hfresh']
          simp [notNullUndef]
      | undef =>
          simp only [List.foldl_cons]
          rw [ih ps hnd' hfresh']
          simp [notNullUndef]
      | _ =>
          simp only [List.foldl_cons]
          rw [setV_fresh ((getV_eq_none_iff ps _).mpr hk0)]
          rw [ih _ hnd' (hfr _)]
          simp [notNullUndef, List.append_assoc]

/-- C9: serializer filter flattening — for every options object passing the
serialize-schema validation and carrying a filters field, the filters[...]
parameters emitted by serializeQuery are exactly one pair per leaf of the
flattening of the filters object (flattenObject recurses only into non-array
plain objects; arrays and primitives are leaves), skipping leaves whose
value is undefined or null, and serialization succeeds. -/
theorem serializer_filter_flattening (opts : QueryOptions) (f : Obj)
    (hf : opts.filters = some f) (hv : validSerialize opts = true) :
    (serializeParams opts).filter (fun kv => isFiltersKey kv.1)
      = ((flattenObject f).filter (fun kv => notNullUndef kv.2)).map
          (fun kv => ("filters[" ++ kv.1 ++ "]", jsToString kv.2)) ∧
    ∃ qs, serializeQuery opts = .ok qs := by
  have hnodup : (keysOf (flattenObject f)).Nodup := dedupAssign_keys_nodup _
  have hfreshbase : ∀ kv ∈ flattenObject f,
      ("filters[" ++ kv.1 ++ "]") ∉ keysOf (serializeBaseParams opts) := by
    intro kv _ hmem
    rcases serializeBaseParams_keys opts _ hmem with h | h | h | h
    · exact (filtersKey_ne_base kv.1).1 h
    · exact (filtersKey_ne_base kv.1).2.1 h
    · exact (filtersKey_ne_base kv.1).2.2.1 h
    · exact (filtersKey_ne_base kv.1).2.2.2 h
  have hsp : serializeParams opts
      = serializeBaseParams opts
        ++ ((flattenObject f).filter (fun kv => notNullUndef kv.2)).map
            (fun kv => ("filters[" ++ kv.1 ++ "]", jsToString kv.2)) := by
    rw [serializeParams, hf]
    exact foldl_filters_append (flattenObject f) (serializeBaseParams opts)
      hnodup hfreshbase
  constructor
  · rw [hsp, List.filter_append]
    have hbase : (serializeBaseParams opts).filter (fun kv => isFiltersKey kv.1) = [] := by
      rw [List.filter_eq_nil_iff]
      intro kv hkv
      rcases serializeBaseParams_keys opts kv.1 (List.mem_map_of_mem Prod.fst hkv)
        with h | h | h | h <;> simp [h, isFiltersKey]
    have hall : (((flattenObject f).filter (fun kv => notNullUndef kv.2)).map
        (fun kv => ("filters[" ++ kv.1 ++ "]", jsToString kv.2))).filter
          (fun kv => isFiltersKey kv.1)
        = ((flattenObject f).filter (fun kv => notNullUndef kv.2)).map
            (fun kv => ("filters[" ++ kv.1 ++ "]", jsToString kv.2)) := by
      rw [List.filter_eq_self]
      intro kv hkv
      obtain ⟨kv0, _, hkv0⟩ := List.mem_map.mp hkv
      rw [← hkv0]
      exact isFiltersKey_mk kv0.1
    rw [hbase, hall]
    rfl
  · unfold serializeQuery
    rw [if_pos hv]
    simp only []
    split_ifs <;> exact ⟨_, rfl⟩

/-- C9 witness: one non-null leaf survives as a filters pair, a null leaf is
dropped, a nested object is flattened to a dot path. -/
theorem serializer_filter_flattening_witness :
    (serializeParams { filters := some [("a", .num 1), ("b", .null), ("c", .obj [("d", .str "x")])] }).filter
        (fun kv => isFiltersKey kv.1)
      = [("filters[a]", "1"), ("filters[c.d]", "x")] ∧
    ∃ qs, serializeQuery { filters := some [("a", .num 1), ("b", .null), ("c", .obj [("d", .str "x")])] }
      = .ok qs := by
  have h := serializer_filter_flattening
    { filters := some [("a", .num 1), ("b", .null), ("c", .obj [("d", .str "x")])] }
    [("a", .num 1), ("b", .null), ("c", .obj [("d", .str "x")])] rfl rfl
  refine ⟨?_, h.2⟩
  rw [h.1]
  rfl

/-! Tree-shape invariant lemmas. -/

theorem whereShape_setV {o : Obj} {k : String} {v : JSValue}
    (ho : whereShape o = true) (hv : whereVal v = true) :
    whereShape (setV o k v) = true := by
  induction o with
  | nil => simp [setV, whereShape, hv]
  | cons hd tl ih =>
      obtain ⟨k1, v1⟩ := hd
      simp only [whereShape, Bool.and_eq_true] at ho
      by_cases h : k1 = k
      · subst h
        simp [setV, whereShape, hv, ho.2]
      · simp [setV, whereShape, h, ho.1, ih ho.2]

theorem cvt_str_whereVal (s : String) :
    whereVal (convertValueType (.str s)) = true := by
  simp only [convertValueType]
  split_ifs <;> try rfl
  cases jsNumParse s with
  | none => rfl
  | some n => simp [whereVal]; split_ifs <;> simp [whereVal]

theorem whereShape_setNestedObj :
    ∀ (ks : List String) (o : Obj) (lastK : String) (v : JSValue),
      whereShape o = true → whereVal v = true →
      whereShape (setNestedObj o ks lastK v) = true := by
  intro ks
  induction ks with
  | nil =>
      intro o lastK v ho hv
      exact whereShape_setV ho hv
  | cons k rest ih =>
      intro o lastK v ho hv
      simp only [setNestedObj]
      cases hg : getV o k with
      | some w =>
          cases w with
          | obj t =>
              have htw : whereVal (.obj t) = true := by
                clear ih
                induction o with
                | nil => simp [getV] at hg
                | cons hd tl iho =>
                    obtain ⟨k1, v1⟩ := hd
                    simp only [whereShape, Bool.and_eq_true] at ho
                    by_cases he : k1 = k
                    · subst he
                      simp [getV] at hg
                      rw [← hg]
                      exact ho.1
                    · simp [getV, he] at hg
                      exact iho ho.2 hg
              have hts : whereShape t = true := by simpa [whereVal] using htw
              exact whereShape_setV ho (by simpa [whereVal] using ih t lastK v hts hv)
          | _ =>
              exact whereShape_setV ho
                (by simpa [whereVal] using ih [] lastK v rfl hv)
      | none =>
          exact whereShape_setV ho
            (by simpa [whereVal] using ih [] lastK v rfl hv)

theorem whereShape_insFilter {acc : Obj} (kv : String × String)
    (h : whereShape acc = true) : whereShape (insFilter acc kv) = true := by
  unfold insFilter
  cases hfp : filterPath? kv.1 with
  | none => simpa
  | some path =>
      show whereShape
        (if path.toList.contains '.' = true then setNestedValue acc path (.str kv.2)
         else setV acc path (convertValueType (.str kv.2))) = true
      by_cases hdot : path.toList.contains '.'
      · simp only [hdot, if_true]
        unfold setNestedValue
        cases hsp : splitStr '.' path with
        | nil => simpa
        | cons s1 srest =>
            exact whereShape_setNestedObj _ _ _ _ h (cvt_str_whereVal kv.2)
      · rw [if_neg hdot]
        exact whereShape_setV h (cvt_str_whereVal kv.2)

theorem whereShape_buildFilters (raw : List (String × String)) :
    whereShape (buildFilters raw) = true := by
  have hgen : ∀ (xs : List (String × String)) (acc : Obj), whereShape acc = true →
      whereShape (xs.foldl insFilter acc) = true := by
    intro xs
    induction xs with
    | nil => intro acc h; simpa
    | cons kv xs' ih =>
        intro acc h
        exact ih _ (whereShape_insFilter kv h)
  exact hgen raw [] rfl

theorem selectVal_obj_inv {w : List (String × JSValue)} (h : selectVal (.obj w) = true) :
    ∃ t, w = [("select", .obj t)] ∧ selectShape t = true := by
  unfold selectVal at h
  split at h
  · simp_all
  · rename_i t heq
    injection heq with heq2
    exact ⟨t, heq2, h⟩
  · simp at h

theorem selectShape_setV {o : Obj} {k : String} {v : JSValue}
    (ho : selectShape o = true) (hv : selectVal v = true) :
    selectShape (setV o k v) = true := by
  induction o with
  | nil => simp [setV, selectShape, hv]
  | cons hd tl ih =>
      obtain ⟨k1, v1⟩ := hd
      simp only [selectShape, Bool.and_eq_true] at ho
      by_cases h : k1 = k
      · subst h
        simp [setV, selectShape, hv, ho.2]
      · simp [setV, selectShape, h, ho.1, ih ho.2]

theorem selectShape_getV {o : Obj} (ho : selectShape o = true) {k : String}
    {w : JSValue} (hg : getV o k = some w) : selectVal w = true := by
  induction o with
  | nil => simp [getV] at hg
  | cons hd tl ih =>
      obtain ⟨k1, v1⟩ := hd
      simp only [selectShape, Bool.and_eq_true] at ho
      by_cases he : k1 = k
      · subst he
        simp [getV] at hg
        rw [← hg]
        exact ho.1
      · simp [getV, he] at hg
        exact ih ho.2 hg

theorem selectShape_insSelectParts :
    ∀ (parts : List String) (o : Obj) (lastK : String),
      selectShape o = true → selectShape (insSelectParts o parts lastK) = true := by
  intro parts
  induction parts with
  | nil =>
      intro o lastK ho
      exact selectShape_setV ho rfl
  | cons k rest ih =>
      intro o lastK ho
      cases hg : getV o k with
      | none =>
          have hstep : insSelectParts o (k :: rest) lastK
              = setV o k (.obj [("select", .obj (insSelectParts [] rest lastK))]) := by
            simp only [insSelectParts, hg]
          rw [hstep]
          exact selectShape_setV ho (ih [] lastK rfl)
      | some w =>
          cases w with
          | obj wfields =>
              obtain ⟨t, hw, hts⟩ := selectVal_obj_inv (selectShape_getV ho hg)
              subst hw
              have hstep : insSelectParts o (k :: rest) lastK
                  = setV o k (.obj [("select", .obj (insSelectParts t rest lastK))]) := by
                simp only [insSelectParts, hg]
                rfl
              rw [hstep]
              exact selectShape_setV ho (ih t lastK hts)
          | bool b =>
              have hstep : insSelectParts o (k :: rest) lastK
                  = setV o k (.obj [("select", .obj (insSelectParts [] rest lastK))]) := by
                simp only [insSelectParts, hg]
              rw [hstep]
              exact selectShape_setV ho (ih [] lastK rfl)
          | str s =>
              have hstep : insSelectParts o (k :: rest) lastK
                  = setV o k (.obj [("select", .obj (insSelectParts [] rest lastK))]) := by
                simp only [insSelectParts, hg]
              rw [hstep]
              exact selectShape_setV ho (ih [] lastK rfl)
          | num n =>
              have hstep : insSelectParts o (k :: rest) lastK
                  = setV o k (.obj [("select", .obj (insSelectParts [] rest lastK))]) := by
                simp only [insSelectParts, hg]
              rw [hstep]
              exact selectShape_setV ho (ih [] lastK rfl)
          | null =>
              have hstep : insSelectParts o (k :: rest) lastK
                  = setV o k (.obj [("select", .obj (insSelectParts [] rest lastK))]) := by
                simp only [insSelectParts, hg]
              rw [hstep]
              exact selectShape_setV ho (ih [] lastK rfl)
          | undef =>
              have hstep : insSelectParts o (k :: rest) lastK
                  = setV o k (.obj [("select", .obj (insSelectParts [] rest lastK))]) := by
                simp only [insSelectParts, hg]
              rw [hstep]
              exact selectShape_setV ho (ih [] lastK rfl)
          | arr xs =>
              have hstep : insSelectParts o (k :: rest) lastK
                  = setV o k (.obj [("select", .obj (insSelectParts [] rest lastK))]) := by
                simp only [insSelectParts, hg]
              rw [hstep]
              exact selectShape_setV ho (ih [] lastK rfl)

theorem selectShape_insertSelectField {o : Obj} (field : String)
    (ho : selectShape o = true) : selectShape (insertSelectField o field) = true := by
  unfold insertSelectField
  by_cases hdot : field.toList.contains '.'
  · simp only [hdot, if_true]
    cases hsp : splitStr '.' field with
    | nil => simpa
    | cons s1 srest => exact selectShape_insSelectParts _ _ _ ho
  · rw [if_neg hdot]
    exact selectShape_setV ho rfl

theorem selectShape_fold (fs : List String) :
    selectShape (fs.foldl insertSelectField []) = true := by
  have hgen : ∀ (ys : List String) (acc : Obj), selectShape acc = true →
      selectShape (ys.foldl insertSelectField acc) = true := by
    intro ys
    induction ys with
    | nil => intro acc h; simpa
    | cons f ys' ih => exact fun acc h => ih _ (selectShape_insertSelectField f h)
  exact hgen fs [] rfl

theorem extractOptions_filters (raw : List (String × String)) :
    (extractOptions raw).1.filters = some (buildFilters raw) := rfl

/-- C8: tree-shape invariant — on every successful parse the select tree
consists solely of boolean-true leaves and `{select: subtree}` wrappers and
the where tree solely of coerced scalar leaves and plain nested objects;
and when a dot path revisits a node holding a leaf, the walk silently
upgrades the leaf to a subtree, both in the where walk (setNestedObj) and
in the select walk (insSelectParts). -/
theorem tree_shape_invariant :
    (∀ raw : List (String × String), (parseQuery raw).success = true →
      (∀ o, (parseQuery raw).data.select = some o → selectShape o = true) ∧
      (∀ o, (parseQuery raw).data.where_ = some o → whereShape o = true)) ∧
    (∀ (o : Obj) (k : String) (rest : List String) (lastK : String) (v w : JSValue),
      getV o k = some w → (∀ t, w ≠ .obj t) →
      ∃ t, getV (setNestedObj o (k :: rest) lastK v) k = some (.obj t)) ∧
    (∀ (o : Obj) (k : String) (rest : List String) (lastK : String),
      getV o k = some (.bool true) →
      ∃ t, getV (insSelectParts o (k :: rest) lastK) k = some (.obj [("select", .obj t)])) := by
  refine ⟨?_, ?_, ?_⟩
  · intro raw h
    obtain ⟨hex2, hval, d, hpq, hd⟩ := parseQuery_success_parts raw h
    obtain ⟨-, -, hsel, hwhr, -⟩ := projectQuery_ok hpq
    constructor
    · intro o ho
      cases hf : (extractOptions raw).1.fields with
      | none =>
          rw [hd, hsel, hf] at ho
          simp [selectOf] at ho
      | some fs =>
          rw [hd, hsel, hf] at ho
          simp only [selectOf] at ho
          split_ifs at ho with hlen
          · rw [← (Option.some_inj.mp ho)]
            exact selectShape_fold fs
    · intro o ho
      rw [hd, hwhr, extractOptions_filters raw] at ho
      simp only [whereOf] at ho
      split_ifs at ho with hemp
      · rw [← (Option.some_inj.mp ho)]
        exact whereShape_buildFilters raw
  · intro o k rest lastK v w hg hw
    have hstep : setNestedObj o (k :: rest) lastK v
        = setV o k (.obj (setNestedObj [] rest lastK v)) := by
      cases w with
      | obj t => exact absurd rfl (hw t)
      | _ => simp only [setNestedObj, hg]
    rw [hstep]
    exact ⟨_, getV_setV_self o k _⟩
  · intro o k rest lastK hg
    have hstep : insSelectParts o (k :: rest) lastK
        = setV o k (.obj [("select", .obj (insSelectParts [] rest lastK))]) := by
      simp only [insSelectParts, hg]
    rw [hstep]
    exact ⟨_, getV_setV_self o k _⟩

/-- C8 witness: a parse with both nested select and nested filters, plus a
leaf-to-subtree upgrade in each kind of tree. -/
theorem tree_shape_invariant_witness :
    ((parseQuery [("fields", "a,b.c"), ("filters[x]", "1"), ("filters[x.y]", "2")]).success = true ∧
      selectShape [("a", .bool true), ("b", .obj [("select", .obj [("c", .bool true)])])] = true) ∧
    (∃ t, getV (setNestedObj [("a", .str "s")] ["a"] "b" (.num 1)) "a" = some (.obj t)) ∧
    (∃ t, getV (insSelectParts [("a", .bool true)] ["a"] "b") "a"
      = some (.obj [("select", .obj t)])) := by
  refine ⟨⟨rfl, ?_⟩, ?_, ?_⟩
  · exact ((tree_shape_invariant.1 [("fields", "a,b.c"), ("filters[x]", "1"), ("filters[x.y]", "2")] rfl).1
      [("a", .bool true), ("b", .obj [("select", .obj [("c", .bool true)])])] rfl)
  · exact tree_shape_invariant.2.1 [("a", .str "s")] "a" [] "b" (.num 1) (.str "s") rfl
      (fun t h => by cases h)
  · exact tree_shape_invariant.2.2 [("a", .bool true)] "a" [] "b" rfl

/-- C3 counterexample: the schema regular expression of querySchema is
case-sensitive (it has no ignore-case flag), so a sort string with an
uppercase direction keyword is rejected during validation and parseQuery
fails, contradicting the claim that it succeeds with the direction
lower-cased. -/
theorem sort_uppercase_rejected :
    (parseQuery [("sort", "name:DESC")]).success = false ∧
    (parseQuery [("sort", "name:DESC")]).errors.map Prod.fst = ["sort"] :=
  ⟨rfl, rfl⟩

/-- C3 amended: for a sort string whose comma-separated terms are
[A-Za-z0-9_]+ tokens, each optionally followed by a colon and a lowercase
asc or desc keyword, parseQuery succeeds, a missing direction defaults to
asc, and the orderBy entries preserve the order of the terms.  (Uppercase
or mixed-case direction keywords are rejected by schema validation, see the
counterexample; the case-insensitive lower-casing in the projection walk is
unreachable for them.) -/
theorem sort_lowercase_directions (terms : List (String × Option String)) (s : String)
    (hne : terms ≠ [])
    (hterms : ∀ t ∈ terms, t.1 ≠ "" ∧ t.1.toList.all isWordChar = true ∧
      (t.2 = none ∨ t.2 = some "asc" ∨ t.2 = some "desc"))
    (hs : s = joinStr "," (terms.map (fun t =>
      match t.2 with
      | none => t.1
      | some d => t.1 ++ ":" ++ d))) :
    (parseQuery [("sort", s)]).success = true ∧
    (parseQuery [("sort", s)]).data.orderBy
      = some (terms.map (fun t => (t.1, t.2.getD "asc"))) := by
  have hwordNoComma : ∀ (w : String), w.toList.all isWordChar = true → ',' ∉ w.toList := by
    intro w hw hmem
    have := List.all_eq_true.mp hw ',' hmem
    simp [isWordChar, isDigitChar] at this
  have hwordNoColon : ∀ (w : String), w.toList.all isWordChar = true → ':' ∉ w.toList := by
    intro w hw hmem
    have := List.all_eq_true.mp hw ':' hmem
    simp [isWordChar, isDigitChar] at this
  have happ : ∀ (a d : String), (a ++ ":" ++ d).toList = a.toList ++ ':' :: d.toList := by
    intro a d
    rw [string_toList_append, string_toList_append]
    rw [show (":" : String).toList = [':'] from rfl]
    simp
  have hsplit : splitStr ',' s = terms.map (fun t =>
      match t.2 with
      | none => t.1
      | some d => t.1 ++ ":" ++ d) := by
    rw [hs]
    apply splitStr_joinStr
    · simpa using hne
    · intro str hstr
      obtain ⟨t, ht, hteq⟩ := List.mem_map.mp hstr
      obtain ⟨h1, h2, h3⟩ := hterms t ht
      rcases h3 with h3 | h3 | h3 <;> rw [h3] at hteq <;> subst hteq
      · exact hwordNoComma _ h2
      all_goals
        · intro hmem
          rw [happ] at hmem
          rcases List.mem_append.mp hmem with hmem | hmem
          · exact hwordNoComma _ h2 hmem
          · simp at hmem
  have hterm : ∀ t ∈ terms, splitStr ':' (match t.2 with
      | none => t.1
      | some d => t.1 ++ ":" ++ d) =
        (match t.2 with
         | none => [t.1]
         | some d => [t.1, d]) := by
    intro t ht
    obtain ⟨h1, h2, h3⟩ := hterms t ht
    have hl1 : ∀ c ∈ t.1.toList, c ≠ ':' := by
      intro c hc he
      exact hwordNoColon _ h2 (he ▸ hc)
    rcases h3 with h3 | h3 | h3 <;> rw [h3]
    · show splitStr ':' t.1 = [t.1]
      unfold splitStr
      rw [splitCharList_no_sep hl1]
      simp [string_mk_toList]
    all_goals
      · unfold splitStr
        rw [happ, splitCharList_sep_mid _ hl1]
        simp only [List.map_cons, string_mk_toList]
        rfl
  have hpattern : sortPatternOk s = true := by
    unfold sortPatternOk
    rw [hsplit]
    rw [List.all_eq_true]
    intro str hstr
    obtain ⟨t, ht, hteq⟩ := List.mem_map.mp hstr
    obtain ⟨h1, h2, h3⟩ := hterms t ht
    subst hteq
    unfold sortTermOk
    rw [hterm t ht]
    have h2' : ∀ x ∈ t.1.toList, isWordChar x = true := List.all_eq_true.mp h2
    simp only [String.toList] at h2'
    rcases h3 with h3 | h3 | h3 <;> rw [h3]
    all_goals
      simp [h1]
      try exact h2'
  have hsne : s ≠ "" := by
    intro he
    rw [he] at hpattern
    exact absurd hpattern (by decide)
  have hgo : ∀ ts : List (String × Option String), (∀ t ∈ ts, t ∈ terms) →
      orderByOfSort.go (ts.map (fun t =>
        match t.2 with
        | none => t.1
        | some d => t.1 ++ ":" ++ d)) =
        some (ts.map (fun t => (t.1, t.2.getD "asc"))) := by
    intro ts
    induction ts with
    | nil => intro _; rfl
    | cons t ts' ih =>
        intro hsub
        have ht : t ∈ terms := hsub t (by simp)
        obtain ⟨h1, h2, h3⟩ := hterms t ht
        have ihr := ih (fun x hx => hsub x (by simp [hx]))
        simp only [List.map_cons, orderByOfSort.go]
        rw [hterm t ht]
        rcases h3 with h3 | h3 | h3 <;> rw [h3] <;> simp [h1, ihr, h3] <;> decide
  have horder : orderByOfSort s = some (terms.map (fun t => (t.1, t.2.getD "asc"))) := by
    unfold orderByOfSort
    rw [hsplit]
    exact hgo terms (fun t ht => ht)
  have hq : extractOptions [("sort", s)] =
      ({ page := none, limit := none, sort := some s, fields := none,
          filters := some [] }, []) := rfl
  have hval : validateQuery
      ({ page := none, limit := none, sort := some s, fields := none,
          filters := some [] } : QueryOptions) = [] := by
    simp [validateQuery, hpattern]
  have hsort : sortProjection (some s)
      = .ok (some (terms.map (fun t => (t.1, t.2.getD "asc")))) := by
    simp only [sortProjection]
    rw [if_pos hsne, horder]
  constructor <;>
    · simp only [parseQuery, hq, hval]
      rw [show mergeErrors [] [] = [] from rfl]
      rw [if_neg (by simp)]
      simp only [projectQuery, hsort]

/-- C3 amended witness: a lowercase desc, plus a term with no direction. -/
theorem sort_lowercase_directions_witness :
    (parseQuery [("sort", "name:desc,createdAt")]).success = true ∧
    (parseQuery [("sort", "name:desc,createdAt")]).data.orderBy
      = some [("name", "desc"), ("createdAt", "asc")] :=
  sort_lowercase_directions [("name", some "desc"), ("createdAt", none)]
    "name:desc,createdAt" (by simp)
    (by
      intro t ht
      simp at ht
      rcases ht with ht | ht <;> subst ht <;> refine ⟨by decide, by decide, by simp⟩)
    rfl

theorem jsNumParse_ne_empty {s : String} {n : Int}
    (h : jsNumParse s = some n) : s ≠ "" := by
  intro he
  subst he
  simp [jsNumParse, decDigits?] at h

theorem convertValueTypeG_int (v : JSValue) :
    convertValueTypeG jsNumParse intToDecString JSValue.num v
      = convertValueType v := by
  cases v with
  | str s =>
      simp only [convertValueTypeG, convertValueType]
      by_cases ht : s = "true"
      · simp [ht]
      · by_cases hf : s = "false"
        · simp [ht, hf]
        · simp only [if_neg ht, if_neg hf]
          cases hp : jsNumParse s with
          | none => rfl
          | some n =>
              have hne : s ≠ "" := jsNumParse_ne_empty hp
              show (if s ≠ "" ∧ intToDecString n = s then JSValue.num n
                  else JSValue.str s)
                = (if intToDecString n = s then JSValue.num n else JSValue.str s)
              by_cases hq : intToDecString n = s
              · rw [if_pos ⟨hne, hq⟩, if_pos hq]
              · rw [if_neg (fun hc => hq hc.2), if_neg hq]
  | num n => rfl
  | bool b => rfl
  | null => rfl
  | undef => rfl
  | arr xs => rfl
  | obj fs => rfl

/-- C5: filter value coercion — for every number carrier and conversion pair
(toNum the non-NaN results of the platform Number, toStr the platform
String of a number, mkNum the embedding of a number as a value), the
coercion applied to every filter leaf classifies as the source does:
non-strings pass through unchanged, the literal strings true and false
become booleans, a nonempty string other than those two that converts to a
number and prints back to exactly itself becomes that number, every other
string stays a string, and coercing a string never yields null or
undefined; the decimal-integer instance coincides with the convertValueType
applied by this model of the parser. -/
theorem filter_value_coercion {Num : Type} (toNum : String → Option Num)
    (toStr : Num → String) (mkNum : Num → JSValue)
    (hmk : ∀ n, mkNum n ≠ .null ∧ mkNum n ≠ .undef) :
    (∀ v : JSValue, (∀ s, v ≠ .str s) →
      convertValueTypeG toNum toStr mkNum v = v) ∧
    convertValueTypeG toNum toStr mkNum (.str "true") = .bool true ∧
    convertValueTypeG toNum toStr mkNum (.str "false") = .bool false ∧
    (∀ s n, s ≠ "true" → s ≠ "false" → s ≠ "" → toNum s = some n →
      toStr n = s → convertValueTypeG toNum toStr mkNum (.str s) = mkNum n) ∧
    (∀ s, s ≠ "true" → s ≠ "false" →
      (s = "" ∨ ∀ n, toNum s = some n → toStr n ≠ s) →
      convertValueTypeG toNum toStr mkNum (.str s) = .str s) ∧
    (∀ s, convertValueTypeG toNum toStr mkNum (.str s) ≠ .null ∧
      convertValueTypeG toNum toStr mkNum (.str s) ≠ .undef) ∧
    (∀ v, convertValueTypeG jsNumParse intToDecString JSValue.num v
      = convertValueType v) := by
  refine ⟨?_, rfl, rfl, ?_, ?_, ?_, convertValueTypeG_int⟩
  · intro v hv
    cases v <;> simp [convertValueTypeG]
    exact absurd rfl (hv _)
  · intro s n ht hf hne hparse hprint
    simp only [convertValueTypeG, if_neg ht, if_neg hf, hparse]
    show (if s ≠ "" ∧ toStr n = s then mkNum n else JSValue.str s) = mkNum n
    rw [if_pos ⟨hne, hprint⟩]
  · intro s ht hf hother
    simp only [convertValueTypeG, if_neg ht, if_neg hf]
    cases hp : toNum s with
    | none => rfl
    | some n =>
        show (if s ≠ "" ∧ toStr n = s then mkNum n else JSValue.str s)
          = JSValue.str s
        rcases hother with he | hrt
        · rw [if_neg (fun hc => hc.1 he)]
        · rw [if_neg (fun hc => hrt n hp hc.2)]
  · intro s
    simp only [convertValueTypeG]
    by_cases ht : s = "true"
    · simp [ht]
    · by_cases hf : s = "false"
      · simp [ht, hf]
      · simp only [if_neg ht, if_neg hf]
        cases hp : toNum s with
        | none => simp
        | some n =>
            show (if s ≠ "" ∧ toStr n = s then mkNum n else JSValue.str s)
                ≠ JSValue.null
              ∧ (if s ≠ "" ∧ toStr n = s then mkNum n else JSValue.str s)
                ≠ JSValue.undef
            by_cases hq : s ≠ "" ∧ toStr n = s
            · rw [if_pos hq]
              exact hmk n
            · rw [if_neg hq]
              simp

/-- C5 witness: the generic classification instantiated at the
decimal-integer conversion pair, evaluated at one input of each kind, with
the instantiation agreeing with convertValueType. -/
theorem filter_value_coercion_witness :
    convertValueTypeG jsNumParse intToDecString JSValue.num (.num 5) = .num 5 ∧
    convertValueTypeG jsNumParse intToDecString JSValue.num (.str "true")
      = .bool true ∧
    convertValueTypeG jsNumParse intToDecString JSValue.num (.str "30")
      = .num 30 ∧
    convertValueTypeG jsNumParse intToDecString JSValue.num (.str "hello")
      = .str "hello" ∧
    convertValueTypeG jsNumParse intToDecString JSValue.num (.str "hello")
      ≠ .null ∧
    convertValueTypeG jsNumParse intToDecString JSValue.num (.str "30")
      = convertValueType (.str "30") := by
  have h := filter_value_coercion jsNumParse intToDecString JSValue.num
    (fun n => ⟨fun hc => JSValue.noConfusion hc, fun hc => JSValue.noConfusion hc⟩)
  refine ⟨h.1 (.num 5) (fun s => by simp), h.2.1,
    h.2.2.2.1 "30" 30 (by decide) (by decide) (by decide) rfl rfl,
    h.2.2.2.2.1 "hello" (by decide) (by decide) ?_,
    (h.2.2.2.2.2.1 "hello").1,
    h.2.2.2.2.2.2 (.str "30")⟩
  right
  intro n hn
  simp [show jsNumParse "hello" = none from rfl] at hn

/-- C7 witness: a base query with every field populated is returned
unchanged when merged with an empty incoming query, here under
non-default strategies. -/
theorem merge_frame_identity_witness :
    mergeQueries
        { skip := some 5, take := some 7, select := some [("id", .bool true)],
          omit_ := some [("secret", .bool true)], orderBy := some [("name", "asc")],
          where_ := some [("status", .str "active")], include_ := some [("posts", .bool true)] }
        {}
        { whereStrategy := .and, selectStrategy := .replace,
          includeStrategy := .replace, orderByStrategy := .append,
          omitStrategy := .replace }
      = { skip := some 5, take := some 7, select := some [("id", .bool true)],
          omit_ := some [("secret", .bool true)], orderBy := some [("name", "asc")],
          where_ := some [("status", .str "active")], include_ := some [("posts", .bool true)] } :=
  (merge_frame_identity _ {} _).2.2.2.2.2.2.2

/-! Round-trip lemmas: strings and paths. -/

theorem setV_getV_id {α : Type} {o : List (String × α)} {k : String} {v : α}
    (h : getV o k = some v) : setV o k v = o := by
  induction o with
  | nil => simp [getV] at h
  | cons hd tl ih =>
      obtain ⟨k1, v1⟩ := hd
      by_cases he : k1 = k
      · subst he
        simp [getV] at h
        simp [setV, h]
      · simp [getV, he] at h
        simp [setV, he, ih h]

theorem getV_append_none {α : Type} {a b : List (String × α)} {k : String}
    (ha : getV a k = none) (hb : getV b k = none) : getV (a ++ b) k = none := by
  rw [getV_append_right b ha]
  exact hb

theorem contains_of_mem {α : Type} [BEq α] [LawfulBEq α] {l : List α} {c : α}
    (h : c ∈ l) : l.contains c = true := by
  induction l with
  | nil => simp at h
  | cons a l ih =>
      rw [List.contains_cons]
      rcases List.mem_cons.mp h with h1 | h1
      · subst h1
        simp
      · rw [ih h1, Bool.or_true]

theorem contains_false_forall {α : Type} [BEq α] [LawfulBEq α] {l : List α} {c : α}
    (h : l.contains c = false) : ∀ x ∈ l, x ≠ c := by
  intro x hx he
  subst he
  rw [contains_of_mem hx] at h
  exact Bool.noConfusion h

theorem mem_of_contains {α : Type} [BEq α] [LawfulBEq α] {l : List α} {c : α}
    (h : l.contains c = true) : c ∈ l := by
  induction l with
  | nil => simp [List.contains_nil] at h
  | cons a l ih =>
      rw [List.contains_cons] at h
      rcases Bool.or_eq_true_iff.mp h with h1 | h1
      · exact (eq_of_beq h1) ▸ List.mem_cons_self a l
      · exact List.mem_cons_of_mem a (ih h1)

theorem contains_eq_false_iff {α : Type} [BEq α] [LawfulBEq α] (l : List α) (c : α) :
    l.contains c = false ↔ c ∉ l := by
  constructor
  · intro h hm
    exact (contains_false_forall h) c hm rfl
  · intro h
    cases hc : l.contains c with
    | false => rfl
    | true => exact absurd (mem_of_contains hc) h

theorem toList_append_dot (a b : String) :
    (a ++ "." ++ b).toList = a.toList ++ '.' :: b.toList := by
  rw [string_toList_append, string_toList_append]
  rw [show ("." : String).toList = ['.'] from rfl]
  simp

theorem string_ne_empty_iff (s : String) : s ≠ "" ↔ s.toList ≠ [] := by
  constructor
  · intro h he
    exact h (by rw [← string_mk_toList s, he])
  · intro h he
    rw [he] at h
    exact h rfl

theorem dot_append_ne_empty (k p : String) : (k ++ "." ++ p) ≠ "" := by
  rw [string_ne_empty_iff, toList_append_dot]
  simp

theorem contains_dot_append (k p : String) :
    (k ++ "." ++ p).toList.contains '.' = true := by
  rw [toList_append_dot]
  exact contains_of_mem (by simp)

theorem splitStr_ne_nil (c : Char) (s : String) : splitStr c s ≠ [] := by
  unfold splitStr
  intro h
  exact splitCharList_ne_nil c s.toList (List.map_eq_nil_iff.mp h)

theorem splitStr_no_dot {k : String} (h : k.toList.contains '.' = false) :
    splitStr '.' k = [k] := by
  unfold splitStr
  rw [splitCharList_no_sep (contains_false_forall h)]
  simp [string_mk_toList]

theorem headSeg_no_dot {k : String} (h : k.toList.contains '.' = false) :
    headSeg k = k := by
  unfold headSeg
  rw [splitStr_no_dot h]
  rfl

theorem splitStr_dot_cons {k : String} (p : String)
    (h : k.toList.contains '.' = false) :
    splitStr '.' (k ++ "." ++ p) = k :: splitStr '.' p := by
  unfold splitStr
  rw [toList_append_dot, splitCharList_sep_mid _ (contains_false_forall h)]
  simp [string_mk_toList]

theorem filterPath?_mk {p : String} (hp : p ≠ "") :
    filterPath? ("filters[" ++ p ++ "]") = some p := by
  have htl := filtersKey_toList p
  have hpl : p.toList ≠ [] := (string_ne_empty_iff p).mp hp
  unfold filterPath?
  rw [htl]
  have h1 : ("filters[".toList ++ p.toList ++ [']']).take 8 = "filters[".toList := by
    rw [List.append_assoc]
    rw [show (8 : Nat) = ("filters[".toList).length from rfl, List.take_left]
  have h2 : ("filters[".toList ++ p.toList ++ [']']).getLast? = some ']' := by
    rw [List.getLast?_concat]
  have h3 : 10 ≤ ("filters[".toList ++ p.toList ++ [']']).length := by
    simp only [List.length_append, List.length_cons, List.length_nil,
      show ("filters[".toList).length = 8 from rfl]
    have : 1 ≤ p.toList.length := by
      cases hc : p.toList with
      | nil => exact absurd hc hpl
      | cons c cs => simp
    omega
  rw [if_pos ⟨h1, h2, h3⟩]
  congr 1
  rw [List.append_assoc]
  rw [show (8 : Nat) = ("filters[".toList).length from rfl, List.drop_left]
  rw [List.dropLast_concat]
  exact string_mk_toList p


/-! Canonical where-tree lemmas. -/

theorem getLastD_mem {α : Type} {l : List α} (hne : l ≠ []) (d : α) :
    l.getLastD d ∈ l := by
  induction l generalizing d with
  | nil => exact absurd rfl hne
  | cons a l ih =>
      rw [List.getLastD_cons]
      cases hl : l with
      | nil => simp [hl]
      | cons b l2 =>
          rw [← hl]
          exact List.mem_cons_of_mem a (ih (by simp [hl]) a)

theorem canonVal_non_obj {v : JSValue} (h : ∀ t, v ≠ .obj t) :
    canonVal v = goodLeafB v := by
  cases v with
  | obj t => exact absurd rfl (h t)
  | _ => rfl

theorem goodLeafB_not_obj {v : JSValue} (h : goodLeafB v = true) :
    ∀ t, v ≠ .obj t := by
  intro t he
  subst he
  simp [goodLeafB] at h

theorem goodLeafB_notNullUndef {v : JSValue} (h : goodLeafB v = true) :
    notNullUndef v = true := by
  cases v <;> simp [goodLeafB, notNullUndef] at h ⊢

theorem goodLeafB_cvt_str (s : String) :
    goodLeafB (convertValueType (.str s)) = true := by
  simp only [convertValueType]
  by_cases ht : s = "true"
  · simp [ht, goodLeafB]
  · by_cases hf : s = "false"
    · simp [ht, hf, goodLeafB]
    · simp only [if_neg ht, if_neg hf]
      cases hp : jsNumParse s with
      | none => simp [goodLeafB, ht, hf, hp]
      | some n =>
          by_cases hq : intToDecString n = s
          · simp [hq, goodLeafB]
          · simp [hq, goodLeafB, ht, hf, hp]

theorem cvt_jsToString_goodLeaf {v : JSValue} (h : goodLeafB v = true) :
    convertValueType (.str (jsToString v)) = v := by
  cases v with
  | str s =>
      simp only [goodLeafB, Bool.and_eq_true, decide_eq_true_eq] at h
      obtain ⟨⟨ht, hf⟩, hnum⟩ := h
      show convertValueType (.str s) = .str s
      simp only [convertValueType, if_neg ht, if_neg hf]
      cases hp : jsNumParse s with
      | none => rfl
      | some n =>
          rw [hp] at hnum
          simp at hnum
          simp [hnum]
  | num n => exact cvt_print n
  | bool b => cases b <;> rfl
  | null => simp [goodLeafB] at h
  | undef => simp [goodLeafB] at h
  | arr xs => simp [goodLeafB] at h
  | obj fs => simp [goodLeafB] at h

theorem canonW_getV {o : Obj} (ho : canonW o = true) {k : String} {w : JSValue}
    (hg : getV o k = some w) : canonVal w = true := by
  induction o with
  | nil => simp [getV] at hg
  | cons hd tl ih =>
      obtain ⟨k1, v1⟩ := hd
      simp only [canonW, Bool.and_eq_true] at ho
      obtain ⟨⟨⟨⟨hb1, hb2⟩, hb3⟩, hb4⟩, htl⟩ := ho
      by_cases he : k1 = k
      · subst he
        simp [getV] at hg
        rw [← hg]
        exact hb4
      · simp [getV, he] at hg
        exact ih htl hg

theorem canonW_setV {o : Obj} {k : String} {v : JSValue}
    (ho : canonW o = true) (hk1 : k ≠ "") (hk2 : k.toList.contains '.' = false)
    (hv : canonVal v = true) : canonW (setV o k v) = true := by
  induction o with
  | nil =>
      have hk2' : '.' ∉ k.toList := (contains_eq_false_iff _ _).mp hk2
      simp [setV, canonW, hv, hk1, keysOf]
      exact hk2'
  | cons hd tl ih =>
      obtain ⟨k1, v1⟩ := hd
      simp only [canonW, Bool.and_eq_true] at ho
      obtain ⟨⟨⟨⟨hb1, hb2⟩, hb3⟩, hb4⟩, htl⟩ := ho
      by_cases he : k1 = k
      · subst he
        simp only [setV, if_pos rfl]
        simp only [canonW, Bool.and_eq_true]
        exact ⟨⟨⟨⟨hb1, hb2⟩, hb3⟩, hv⟩, htl⟩
      · simp only [setV, if_neg he]
        have hknotin : (!((keysOf (setV tl k v)).contains k1)) = true := by
          rw [Bool.not_eq_true', contains_eq_false_iff]
          intro hmem
          rcases (mem_keysOf_setV tl k v k1).mp hmem with h1 | h1
          · exact he h1
          · have hb3' : (keysOf tl).contains k1 = false := by
              simpa using hb3
            exact (contains_false_forall hb3') k1 h1 rfl
        simp only [canonW, Bool.and_eq_true]
        exact ⟨⟨⟨⟨hb1, hb2⟩, hknotin⟩, hb4⟩, ih htl⟩

theorem setNestedObj_ne_nil (o : Obj) (ks : List String) (lastK : String)
    (v : JSValue) : setNestedObj o ks lastK v ≠ [] := by
  cases ks with
  | nil => exact setV_ne_nil o lastK v
  | cons k rest =>
      simp only [setNestedObj]
      cases getV o k with
      | none => exact setV_ne_nil _ _ _
      | some w => cases w <;> exact setV_ne_nil _ _ _

theorem canonW_setNestedObj :
    ∀ (ks : List String) (o : Obj) (lastK : String) (v : JSValue),
      canonW o = true →
      (∀ seg ∈ ks, seg ≠ "" ∧ seg.toList.contains '.' = false) →
      lastK ≠ "" → lastK.toList.contains '.' = false →
      canonVal v = true →
      canonW (setNestedObj o ks lastK v) = true := by
  intro ks
  induction ks with
  | nil =>
      intro o lastK v ho _ hl1 hl2 hv
      exact canonW_setV ho hl1 hl2 hv
  | cons k rest ih =>
      intro o lastK v ho hks hl1 hl2 hv
      obtain ⟨hk1, hk2⟩ := hks k (List.mem_cons_self _ _)
      have hrest : ∀ seg ∈ rest, seg ≠ "" ∧ seg.toList.contains '.' = false :=
        fun seg hs => hks seg (List.mem_cons_of_mem _ hs)
      simp only [setNestedObj]
      cases hg : getV o k with
      | some w =>
          cases w with
          | obj t =>
              have hvt : canonVal (.obj t) = true := canonW_getV ho hg
              simp only [canonVal, Bool.and_eq_true] at hvt
              have hinner := ih t lastK v hvt.2 hrest hl1 hl2 hv
              refine canonW_setV ho hk1 hk2 ?_
              simp [canonVal, hinner, setNestedObj_ne_nil]
          | _ =>
              refine canonW_setV ho hk1 hk2 ?_
              simp [canonVal, ih [] lastK v rfl hrest hl1 hl2 hv, setNestedObj_ne_nil]
      | none =>
          refine canonW_setV ho hk1 hk2 ?_
          simp [canonVal, ih [] lastK v rfl hrest hl1 hl2 hv, setNestedObj_ne_nil]

theorem dotPathOk_segs {p : String} (h : dotPathOk p = true) :
    ∀ seg ∈ splitStr '.' p, seg ≠ "" ∧ seg.toList.contains '.' = false := by
  intro seg hs
  constructor
  · exact of_decide_eq_true (List.all_eq_true.mp h seg hs)
  · rw [contains_eq_false_iff]
    unfold splitStr at hs
    obtain ⟨piece, hpiece, hmk⟩ := List.mem_map.mp hs
    rw [← hmk]
    exact mem_splitCharList_no_sep piece hpiece

theorem canonW_insFilter {acc : Obj} (kv : String × String)
    (hacc : canonW acc = true)
    (hkv : ∀ p, filterPath? kv.1 = some p → dotPathOk p = true) :
    canonW (insFilter acc kv) = true := by
  unfold insFilter
  cases hfp : filterPath? kv.1 with
  | none => simpa
  | some path =>
      have hdp := hkv path hfp
      have hsegs := dotPathOk_segs hdp
      show canonW
        (if path.toList.contains '.' = true then setNestedValue acc path (.str kv.2)
         else setV acc path (convertValueType (.str kv.2))) = true
      have hcv : canonVal (convertValueType (.str kv.2)) = true := by
        rw [canonVal_non_obj]
        · exact goodLeafB_cvt_str kv.2
        · exact goodLeafB_not_obj (goodLeafB_cvt_str kv.2)
      by_cases hdot : path.toList.contains '.'
      · simp only [hdot, if_true]
        unfold setNestedValue
        cases hsp : splitStr '.' path with
        | nil => simpa
        | cons s1 srest =>
            apply canonW_setNestedObj _ _ _ _ hacc _ _ _ hcv
            · intro seg hs
              exact hsegs seg (by
                rw [hsp]
                exact List.dropLast_subset _ hs)
            · have hmem : (s1 :: srest).getLastD "" ∈ s1 :: srest :=
                getLastD_mem (by simp) ""
              exact (hsegs _ (hsp ▸ hmem)).1
            · have hmem : (s1 :: srest).getLastD "" ∈ s1 :: srest :=
                getLastD_mem (by simp) ""
              exact (hsegs _ (hsp ▸ hmem)).2
      · rw [if_neg hdot]
        have hp : path ∈ splitStr '.' path := by
          rw [splitStr_no_dot (by simpa using hdot)]
          simp
        exact canonW_setV hacc (hsegs path hp).1 (hsegs path hp).2 hcv

theorem canonW_buildFilters {raw : List (String × String)}
    (hraw : rawFiltersOnly raw = true) : canonW (buildFilters raw) = true := by
  have hgen : ∀ (xs : List (String × String)) (acc : Obj),
      (∀ kv ∈ xs, ∀ p, filterPath? kv.1 = some p → dotPathOk p = true) →
      canonW acc = true → canonW (xs.foldl insFilter acc) = true := by
    intro xs
    induction xs with
    | nil => intro acc _ h; simpa
    | cons kv xs' ih =>
        intro acc hall h
        exact ih _ (fun kv2 h2 => hall kv2 (List.mem_cons_of_mem _ h2))
          (canonW_insFilter kv h (hall kv (List.mem_cons_self _ _)))
  refine hgen raw [] ?_ rfl
  intro kv hkv p hp
  have := List.all_eq_true.mp hraw kv hkv
  rw [hp] at this
  exact this

/-! Round-trip lemmas: single-step and grouped rebuild of prefixed paths. -/

theorem string_ext {s t : String} (h : s.toList = t.toList) : s = t := by
  rw [← string_mk_toList s, ← string_mk_toList t, h]

theorem dot_append_assoc (a b c : String) :
    (a ++ "." ++ b) ++ "." ++ c = a ++ "." ++ (b ++ "." ++ c) := by
  apply string_ext
  rw [toList_append_dot, toList_append_dot, toList_append_dot, toList_append_dot]
  simp

theorem dot_append_inj {k p1 p2 : String}
    (h : k ++ "." ++ p1 = k ++ "." ++ p2) : p1 = p2 := by
  have h1 := congrArg String.toList h
  rw [toList_append_dot, toList_append_dot] at h1
  have h2 := List.append_cancel_left h1
  exact string_ext (List.cons.injEq _ _ _ _ ▸ h2).2

theorem headSeg_dot_append {k : String} (p : String)
    (h : k.toList.contains '.' = false) : headSeg (k ++ "." ++ p) = k := by
  unfold headSeg
  rw [splitStr_dot_cons p h]
  rfl

theorem getV_singleton_ne {α : Type} {k k2 : String} (v : α) (h : k2 ≠ k) :
    getV [(k, v)] k2 = none := by
  show (if k = k2 then some v else getV ([] : List (String × α)) k2) = none
  rw [if_neg (fun he => h he.symm)]
  rfl

theorem setNestedValue_eq (o : Obj) (p : String) (v : JSValue) :
    setNestedValue o p v
      = setNestedObj o (splitStr '.' p).dropLast ((splitStr '.' p).getLastD "")
          (convertValueType v) := by
  unfold setNestedValue
  cases hs : splitStr '.' p with
  | nil => exact absurd hs (splitStr_ne_nil _ _)
  | cons a l => rfl

theorem insFilter_some {acc : Obj} (kv : String × String) {path : String}
    (h : filterPath? kv.1 = some path) :
    insFilter acc kv
      = (if path.toList.contains '.' then setNestedValue acc path (.str kv.2)
         else setV acc path (convertValueType (.str kv.2))) := by
  unfold insFilter
  cases hfp : filterPath? kv.1 with
  | none =>
      rw [h] at hfp
      exact absurd hfp (by simp)
  | some q =>
      rw [h] at hfp
      rw [← Option.some_inj.mp hfp]

theorem insFilter_dot_step (acc : Obj) {k p : String} (val : String)
    (hk1 : k ≠ "") (hk2 : k.toList.contains '.' = false) (hp : p ≠ "") :
    insFilter acc ("filters[" ++ (k ++ "." ++ p) ++ "]", val)
      = setV acc k (.obj (insFilter (innerObj acc k)
          ("filters[" ++ p ++ "]", val))) := by
  have hfp1 : filterPath? ("filters[" ++ (k ++ "." ++ p) ++ "]")
      = some (k ++ "." ++ p) := filterPath?_mk (dot_append_ne_empty k p)
  have hfp2 : filterPath? ("filters[" ++ p ++ "]") = some p := filterPath?_mk hp
  rw [insFilter_some _ hfp1, insFilter_some _ hfp2]
  rw [if_pos (contains_dot_append k p)]
  rw [setNestedValue_eq]
  rw [splitStr_dot_cons p hk2]
  by_cases hpd : p.toList.contains '.' = true
  · rw [if_pos hpd, setNestedValue_eq]
    cases hsp : splitStr '.' p with
    | nil => exact absurd hsp (splitStr_ne_nil _ _)
    | cons s1 srest =>
        have hdl : (k :: s1 :: srest).dropLast = k :: (s1 :: srest).dropLast := rfl
        have hgl : (k :: s1 :: srest).getLastD "" = (s1 :: srest).getLastD "" := by
          rw [List.getLastD_cons, List.getLastD_cons, List.getLastD_cons]
        rw [hdl, hgl]
        simp only [setNestedObj]
        unfold innerObj
        cases hg : getV acc k with
        | none => rfl
        | some wv => cases wv <;> rfl
  · rw [if_neg hpd]
    have hpd2 : p.toList.contains '.' = false := by
      simpa using hpd
    rw [splitStr_no_dot hpd2]
    show setNestedObj acc [k] p (convertValueType (.str val)) = _
    simp only [setNestedObj]
    unfold innerObj
    cases hg : getV acc k with
    | none => rfl
    | some wv => cases wv <;> rfl

theorem foldl_reFilter_prefixed :
    ∀ (xs : List (String × JSValue)) (k : String) (acc : Obj),
      xs ≠ [] → k ≠ "" → k.toList.contains '.' = false →
      (∀ kv ∈ xs, kv.1 ≠ "") →
      (xs.map (fun kv => (k ++ "." ++ kv.1, kv.2))).foldl reFilter acc
        = setV acc k (.obj (xs.foldl reFilter (innerObj acc k))) := by
  intro xs
  induction xs with
  | nil => intro k acc hne _ _ _; exact absurd rfl hne
  | cons kv xs2 ih =>
      intro k acc _ hk1 hk2 hkeys
      have hstep : reFilter acc (k ++ "." ++ kv.1, kv.2)
          = setV acc k (.obj (reFilter (innerObj acc k) kv)) := by
        unfold reFilter
        exact insFilter_dot_step acc (jsToString kv.2) hk1 hk2
          (hkeys kv (List.mem_cons_self _ _))
      simp only [List.map_cons, List.foldl_cons]
      rw [hstep]
      cases hxs2 : xs2 with
      | nil => rfl
      | cons kv2 xs3 =>
          rw [← hxs2]
          rw [ih k (setV acc k (.obj (reFilter (innerObj acc k) kv)))
            (by rw [hxs2]; simp) hk1 hk2
            (fun kv3 h3 => hkeys kv3 (List.mem_cons_of_mem _ h3))]
          have hio : innerObj (setV acc k (.obj (reFilter (innerObj acc k) kv))) k
              = reFilter (innerObj acc k) kv := by
            unfold innerObj
            rw [getV_setV_self]
          rw [hio, setV_setV_self]

/-! Flattening lemmas: preorder leaves of a canonical where tree. -/

theorem measure_ind {α : Type} (f : α → Nat) {P : α → Prop}
    (h : ∀ x, (∀ y, f y < f x → P y) → P x) : ∀ x, P x := by
  have key : ∀ n x, f x < n → P x := by
    intro n
    induction n with
    | zero => intro x hx; exact absurd hx (Nat.not_lt_zero _)
    | succ n ih =>
        intro x hx
        refine h x (fun y hy => ih y ?_)
        omega
  exact fun x => key (f x + 1) x (Nat.lt_succ_self _)

theorem sizeOf_tail_lt (k : String) (v : JSValue) (rest : Obj) :
    sizeOf rest < sizeOf ((k, v) :: rest : Obj) := by
  simp only [List.cons.sizeOf_spec, Prod.mk.sizeOf_spec]
  omega

theorem sizeOf_objval_lt (k : String) (u : Obj) (rest : Obj) :
    sizeOf u < sizeOf ((k, JSValue.obj u) :: rest : Obj) := by
  simp only [List.cons.sizeOf_spec, Prod.mk.sizeOf_spec, JSValue.obj.sizeOf_spec]
  omega

theorem flattenRaw_cons_pre {k : String} (v : JSValue) (rest : Obj) {pre : String}
    (hpre : pre ≠ "") :
    flattenRaw ((k, v) :: rest) pre
      = flattenLeaf (pre ++ "." ++ k) v ++ flattenRaw rest pre := by
  simp only [flattenRaw]
  rw [if_neg hpre]

theorem flattenRaw_cons_root (k : String) (v : JSValue) (rest : Obj) :
    flattenRaw ((k, v) :: rest) "" = flattenLeaf k v ++ flattenRaw rest "" := rfl

theorem isEmpty_false_ne_nil {u : Obj} (h : u.isEmpty = false) : u ≠ [] := by
  cases u with
  | nil => simp [List.isEmpty] at h
  | cons a l => exact List.cons_ne_nil a l

theorem flattenRaw_prefixed :
    ∀ (t : Obj), canonW t = true → ∀ pre : String, pre ≠ "" →
      flattenRaw t pre
        = (flattenRaw t "").map (fun kv => (pre ++ "." ++ kv.1, kv.2)) := by
  refine measure_ind sizeOf ?_
  intro t ih hc pre hpre
  cases t with
  | nil => rfl
  | cons hd rest =>
      obtain ⟨k, v⟩ := hd
      simp only [canonW, Bool.and_eq_true] at hc
      obtain ⟨⟨⟨⟨hb1, hb2⟩, hb3⟩, hb4⟩, htl⟩ := hc
      have hk1 : k ≠ "" := of_decide_eq_true hb1
      rw [flattenRaw_cons_pre v rest hpre, flattenRaw_cons_root k v rest]
      rw [List.map_append]
      rw [ih rest (sizeOf_tail_lt k v rest) htl pre hpre]
      congr 1
      cases v with
      | obj u =>
          simp only [canonVal, Bool.and_eq_true] at hb4
          obtain ⟨hne, hcu⟩ := hb4
          show flattenRaw u (pre ++ "." ++ k) = _
          rw [ih u (sizeOf_objval_lt k u rest) hcu (pre ++ "." ++ k)
            (dot_append_ne_empty pre k)]
          show _ = ((flattenRaw u k).map (fun kv => (pre ++ "." ++ kv.1, kv.2)))
          rw [ih u (sizeOf_objval_lt k u rest) hcu k hk1]
          rw [List.map_map]
          congr 1
          funext kv
          simp only [Function.comp]
          rw [dot_append_assoc]
      | str s => rfl
      | num n => rfl
      | bool b => rfl
      | null => rfl
      | undef => rfl
      | arr xs => rfl

theorem flattenRaw_mem :
    ∀ (t : Obj), canonW t = true →
      ∀ kv ∈ flattenRaw t "",
        kv.1 ≠ "" ∧ goodLeafB kv.2 = true ∧ headSeg kv.1 ∈ keysOf t := by
  refine measure_ind sizeOf ?_
  intro t ih hc kv hkv
  cases t with
  | nil => simp [flattenRaw] at hkv
  | cons hd rest =>
      obtain ⟨k, v⟩ := hd
      simp only [canonW, Bool.and_eq_true] at hc
      obtain ⟨⟨⟨⟨hb1, hb2⟩, hb3⟩, hb4⟩, htl⟩ := hc
      have hk1 : k ≠ "" := of_decide_eq_true hb1
      have hk2 : k.toList.contains '.' = false := by simpa using hb2
      rw [flattenRaw_cons_root k v rest] at hkv
      rcases List.mem_append.mp hkv with hin | hin
      · cases v with
        | obj u =>
            simp only [canonVal, Bool.and_eq_true] at hb4
            obtain ⟨hne, hcu⟩ := hb4
            have hin2 : kv ∈ (flattenRaw u "").map
                (fun kv => (k ++ "." ++ kv.1, kv.2)) := by
              rw [← flattenRaw_prefixed u hcu k hk1]
              exact hin
            obtain ⟨kv0, hkv0, hkve⟩ := List.mem_map.mp hin2
            obtain ⟨h01, h02, _⟩ := ih u (sizeOf_objval_lt k u rest) hcu kv0 hkv0
            rw [← hkve]
            refine ⟨dot_append_ne_empty k kv0.1, h02, ?_⟩
            rw [headSeg_dot_append kv0.1 hk2]
            exact List.mem_cons_self _ _
        | str s =>
            rw [List.mem_singleton.mp hin]
            exact ⟨hk1, hb4, by rw [headSeg_no_dot hk2]; exact List.mem_cons_self _ _⟩
        | num n =>
            rw [List.mem_singleton.mp hin]
            exact ⟨hk1, hb4, by rw [headSeg_no_dot hk2]; exact List.mem_cons_self _ _⟩
        | bool b =>
            rw [List.mem_singleton.mp hin]
            exact ⟨hk1, hb4, by rw [headSeg_no_dot hk2]; exact List.mem_cons_self _ _⟩
        | null =>
            rw [List.mem_singleton.mp hin]
            exact ⟨hk1, hb4, by rw [headSeg_no_dot hk2]; exact List.mem_cons_self _ _⟩
        | undef =>
            rw [List.mem_singleton.mp hin]
            exact ⟨hk1, hb4, by rw [headSeg_no_dot hk2]; exact List.mem_cons_self _ _⟩
        | arr xs =>
            rw [List.mem_singleton.mp hin]
            exact ⟨hk1, hb4, by rw [headSeg_no_dot hk2]; exact List.mem_cons_self _ _⟩
      · obtain ⟨h1, h2, h3⟩ := ih rest (sizeOf_tail_lt k v rest) htl kv hin
        exact ⟨h1, h2, List.mem_cons_of_mem _ h3⟩

theorem flattenRaw_ne_nil :
    ∀ (t : Obj), canonW t = true → t ≠ [] → ∀ pre, flattenRaw t pre ≠ [] := by
  refine measure_ind sizeOf ?_
  intro t ih hc htne pre
  cases t with
  | nil => exact absurd rfl htne
  | cons hd rest =>
      obtain ⟨k, v⟩ := hd
      simp only [canonW, Bool.and_eq_true] at hc
      obtain ⟨⟨⟨⟨hb1, hb2⟩, hb3⟩, hb4⟩, htl⟩ := hc
      intro hnil
      have hsplit : flattenLeaf (if pre = "" then k else pre ++ "." ++ k) v
          ++ flattenRaw rest pre = [] := by
        rw [← hnil]
        simp only [flattenRaw]
      have hleaf : flattenLeaf (if pre = "" then k else pre ++ "." ++ k) v = [] :=
        (List.append_eq_nil.mp hsplit).1
      revert hleaf
      cases v with
      | obj u =>
          simp only [canonVal, Bool.and_eq_true] at hb4
          obtain ⟨hne, hcu⟩ := hb4
          show flattenRaw u _ = [] → False
          exact ih u (sizeOf_objval_lt k u rest) hcu
            (isEmpty_false_ne_nil (by simpa using hne)) _
      | str s => simp [flattenLeaf]
      | num n => simp [flattenLeaf]
      | bool b => simp [flattenLeaf]
      | null => simp [flattenLeaf]
      | undef => simp [flattenLeaf]
      | arr xs => simp [flattenLeaf]

theorem flattenRaw_keys_nodup :
    ∀ (t : Obj), canonW t = true → (keysOf (flattenRaw t "")).Nodup := by
  refine measure_ind sizeOf ?_
  intro t ih hc
  cases t with
  | nil => exact List.nodup_nil
  | cons hd rest =>
      obtain ⟨k, v⟩ := hd
      simp only [canonW, Bool.and_eq_true] at hc
      obtain ⟨⟨⟨⟨hb1, hb2⟩, hb3⟩, hb4⟩, htl⟩ := hc
      have hk1 : k ≠ "" := of_decide_eq_true hb1
      have hk2 : k.toList.contains '.' = false := by simpa using hb2
      have hk3 : k ∉ keysOf rest := by
        rw [← contains_eq_false_iff]
        simpa using hb3
      rw [flattenRaw_cons_root k v rest]
      unfold keysOf
      rw [List.map_append, List.nodup_append]
      have hheadA : ∀ a ∈ (flattenLeaf k v).map Prod.fst, headSeg a = k := by
        intro a ha
        obtain ⟨kv0, hkv0, hkve⟩ := List.mem_map.mp ha
        cases v with
        | obj u =>
            simp only [canonVal, Bool.and_eq_true] at hb4
            obtain ⟨hne, hcu⟩ := hb4
            have hin2 : kv0 ∈ (flattenRaw u "").map
                (fun kv => (k ++ "." ++ kv.1, kv.2)) := by
              rw [← flattenRaw_prefixed u hcu k hk1]
              exact hkv0
            obtain ⟨kv1, _, hkv1⟩ := List.mem_map.mp hin2
            rw [← hkve, ← hkv1]
            exact headSeg_dot_append kv1.1 hk2
        | str s =>
            rw [← hkve, List.mem_singleton.mp hkv0]
            exact headSeg_no_dot hk2
        | num n =>
            rw [← hkve, List.mem_singleton.mp hkv0]
            exact headSeg_no_dot hk2
        | bool b =>
            rw [← hkve, List.mem_singleton.mp hkv0]
            exact headSeg_no_dot hk2
        | null =>
            rw [← hkve, List.mem_singleton.mp hkv0]
            exact headSeg_no_dot hk2
        | undef =>
            rw [← hkve, List.mem_singleton.mp hkv0]
            exact headSeg_no_dot hk2
        | arr xs =>
            rw [← hkve, List.mem_singleton.mp hkv0]
            exact headSeg_no_dot hk2
      refine ⟨?_, ih rest (sizeOf_tail_lt k v rest) htl, ?_⟩
      · cases v with
        | obj u =>
            simp only [canonVal, Bool.and_eq_true] at hb4
            obtain ⟨hne, hcu⟩ := hb4
            show (((flattenRaw u k).map Prod.fst)).Nodup
            rw [flattenRaw_prefixed u hcu k hk1, List.map_map]
            have hmm : (Prod.fst ∘ fun kv : String × JSValue =>
                ((k ++ "." ++ kv.1, kv.2) : String × JSValue))
                = (fun p => k ++ "." ++ p) ∘ Prod.fst := rfl
            rw [hmm, ← List.map_map]
            refine List.Nodup.map ?_ (ih u (sizeOf_objval_lt k u rest) hcu)
            intro a b hab
            exact dot_append_inj hab
        | str s => simp [flattenLeaf]
        | num n => simp [flattenLeaf]
        | bool b => simp [flattenLeaf]
        | null => simp [flattenLeaf]
        | undef => simp [flattenLeaf]
        | arr xs => simp [flattenLeaf]
      · intro a haA haB
        have hhA : headSeg a = k := hheadA a haA
        obtain ⟨kv0, hkv0, hkve⟩ := List.mem_map.mp haB
        have hmemB := (flattenRaw_mem rest htl kv0 hkv0).2.2
        rw [hkve, hhA] at hmemB
        exact hk3 hmemB

/-! Rebuild lemmas: folding the serialized leaves back through the parser. -/

theorem reFilter_leaf (acc : Obj) {k : String} {v : JSValue}
    (hk1 : k ≠ "") (hk2 : k.toList.contains '.' = false)
    (hgood : goodLeafB v = true) (hgk : getV acc k = none) :
    reFilter acc (k, v) = acc ++ [(k, v)] := by
  unfold reFilter
  rw [insFilter_some _ (filterPath?_mk hk1)]
  rw [if_neg (by rw [hk2]; exact Bool.false_ne_true)]
  rw [cvt_jsToString_goodLeaf hgood]
  exact setV_fresh hgk _

theorem foldl_setV_fresh :
    ∀ (xs : List (String × JSValue)) (acc : Obj),
      (keysOf xs).Nodup → (∀ kv ∈ xs, getV acc kv.1 = none) →
      xs.foldl (fun a kv => setV a kv.1 kv.2) acc = acc ++ xs := by
  intro xs
  induction xs with
  | nil => intro acc _ _; simp
  | cons kv xs2 ih =>
      intro acc hnd hfr
      simp only [keysOf, List.map_cons, List.nodup_cons] at hnd
      simp only [List.foldl_cons]
      rw [setV_fresh (hfr kv (List.mem_cons_self _ _))]
      rw [ih (acc ++ [kv]) hnd.2 ?_]
      · simp
      · intro kv2 hkv2
        refine getV_append_none (hfr kv2 (List.mem_cons_of_mem _ hkv2)) ?_
        refine getV_singleton_ne _ (fun he => ?_)
        exact hnd.1 (he ▸ List.mem_map_of_mem Prod.fst hkv2)

theorem dedupAssign_id {xs : List (String × JSValue)}
    (h : (keysOf xs).Nodup) : dedupAssign xs = xs := by
  unfold dedupAssign
  rw [foldl_setV_fresh xs [] h (fun kv _ => rfl)]
  simp

theorem foldl_reFilter_flatten :
    ∀ (t : Obj), canonW t = true →
      ∀ acc : Obj, (∀ k ∈ keysOf t, getV acc k = none) →
      (flattenRaw t "").foldl reFilter acc = acc ++ t := by
  refine measure_ind sizeOf ?_
  intro t ih hc acc hacc
  cases t with
  | nil => simp [flattenRaw]
  | cons hd rest =>
      obtain ⟨k, v⟩ := hd
      simp only [canonW, Bool.and_eq_true] at hc
      obtain ⟨⟨⟨⟨hb1, hb2⟩, hb3⟩, hb4⟩, htl⟩ := hc
      have hk1 : k ≠ "" := of_decide_eq_true hb1
      have hk2 : k.toList.contains '.' = false := by simpa using hb2
      have hk3 : k ∉ keysOf rest := by
        rw [← contains_eq_false_iff]
        simpa using hb3
      have hgk : getV acc k = none := hacc k (by simp [keysOf])
      rw [flattenRaw_cons_root k v rest]
      rw [List.foldl_append]
      have hchunk : (flattenLeaf k v).foldl reFilter acc = acc ++ [(k, v)] := by
        cases v with
        | obj u =>
            simp only [canonVal, Bool.and_eq_true] at hb4
            obtain ⟨hne, hcu⟩ := hb4
            have hune : u ≠ [] := isEmpty_false_ne_nil (by simpa using hne)
            show (flattenRaw u k).foldl reFilter acc = _
            rw [flattenRaw_prefixed u hcu k hk1]
            rw [foldl_reFilter_prefixed (flattenRaw u "") k acc
              (flattenRaw_ne_nil u hcu hune "") hk1 hk2
              (fun kv hkv => (flattenRaw_mem u hcu kv hkv).1)]
            have hio : innerObj acc k = [] := by
              unfold innerObj
              rw [hgk]
            rw [hio]
            rw [ih u (sizeOf_objval_lt k u rest) hcu [] (fun k2 _ => rfl)]
            rw [List.nil_append]
            exact setV_fresh hgk _
        | str s =>
            simp only [flattenLeaf, List.foldl_cons, List.foldl_nil]
            exact reFilter_leaf acc hk1 hk2 hb4 hgk
        | num n =>
            simp only [flattenLeaf, List.foldl_cons, List.foldl_nil]
            exact reFilter_leaf acc hk1 hk2 hb4 hgk
        | bool b =>
            simp only [flattenLeaf, List.foldl_cons, List.foldl_nil]
            exact reFilter_leaf acc hk1 hk2 hb4 hgk
        | null => simp [goodLeafB, canonVal] at hb4
        | undef => simp [goodLeafB, canonVal] at hb4
        | arr xs =>
            simp only [flattenLeaf, List.foldl_cons, List.foldl_nil]
            exact reFilter_leaf acc hk1 hk2 hb4 hgk
      rw [hchunk]
      have hfr : ∀ k2 ∈ keysOf rest, getV (acc ++ [(k, v)]) k2 = none := by
        intro k2 hk2m
        refine getV_append_none (hacc k2 (List.mem_cons_of_mem _ hk2m)) ?_
        exact getV_singleton_ne _ (fun he => hk3 (he ▸ hk2m))
      rw [ih rest (sizeOf_tail_lt k v rest) htl (acc ++ [(k, v)]) hfr]
      simp

/-! Second-parse lemmas and the round-trip theorem. -/

theorem canonW_buildFilters_of_keysOk {raw : List (String × String)}
    (hraw : rawFilterKeysOk raw = true) : canonW (buildFilters raw) = true := by
  have hgen : ∀ (xs : List (String × String)) (acc : Obj),
      (∀ kv ∈ xs, ∀ p, filterPath? kv.1 = some p → dotPathOk p = true) →
      canonW acc = true → canonW (xs.foldl insFilter acc) = true := by
    intro xs
    induction xs with
    | nil => intro acc _ h; simpa
    | cons kv xs2 ih =>
        intro acc hall h
        exact ih _ (fun kv2 h2 => hall kv2 (List.mem_cons_of_mem _ h2))
          (canonW_insFilter kv h (hall kv (List.mem_cons_self _ _)))
  refine hgen raw [] ?_ rfl
  intro kv hkv p hp
  have hx := List.all_eq_true.mp hraw kv hkv
  rw [hp] at hx
  exact hx

theorem serializeParams_filters_only {w : Obj} (hc : canonW w = true) :
    serializeParams { filters := some w }
      = (flattenRaw w "").map
          (fun kv => ("filters[" ++ kv.1 ++ "]", jsToString kv.2)) := by
  have hnd : (keysOf (flattenRaw w "")).Nodup := flattenRaw_keys_nodup w hc
  have hfo : flattenObject w = flattenRaw w "" := by
    unfold flattenObject
    exact dedupAssign_id hnd
  have h0 : serializeParams { filters := some w }
      = (flattenObject w).foldl
          (fun acc kv =>
            match kv.2 with
            | .undef => acc
            | .null => acc
            | v => setV acc ("filters[" ++ kv.1 ++ "]") (jsToString v)) [] := rfl
  rw [h0, hfo]
  rw [foldl_filters_append (flattenRaw w "") [] hnd (by
    intro kv _ hmem
    simp [keysOf] at hmem)]
  rw [List.nil_append]
  congr 1
  rw [List.filter_eq_self]
  intro kv hkv
  exact goodLeafB_notNullUndef ((flattenRaw_mem w hc kv hkv).2.1)

theorem getV_wrapped_base_none (L : List (String × JSValue)) (name : String)
    (hname : ∀ p : String, "filters[" ++ p ++ "]" ≠ name) :
    getV (L.map (fun kv => ("filters[" ++ kv.1 ++ "]", jsToString kv.2)))
      name = none := by
  rw [getV_eq_none_iff]
  intro hmem
  unfold keysOf at hmem
  rw [List.map_map] at hmem
  obtain ⟨kv, _, hkv⟩ := List.mem_map.mp hmem
  exact hname kv.1 hkv

theorem parseQuery_filters_pure (r : List (String × String))
    (hp : getV r "page" = none) (hl : getV r "limit" = none)
    (hso : getV r "sort" = none) (hf : getV r "fields" = none)
    (hne : (buildFilters r).isEmpty = false) :
    parseQuery r
      = { data := { where_ := some (buildFilters r) },
          success := true, errors := [] } := by
  have hex : extractOptions r
      = ({ page := none, limit := none, sort := none,
           fields := none, filters := some (buildFilters r) }, []) := by
    unfold extractOptions
    rw [hp, hl, hso, hf]
    rfl
  unfold parseQuery
  rw [hex]
  show ({ data := { skip := none, take := none, select := none, orderBy := none, where_ := (if (buildFilters r).isEmpty then none else some (buildFilters r)) }, success := true, errors := [] } : QueryParseResult) = _
  rw [if_neg (by rw [hne]; exact Bool.false_ne_true)]

/-- C1: round-trip fidelity of filters — for every raw parameter map whose
filter-pattern keys carry well-formed dot paths (string leaves), if
parseQuery succeeds producing a where tree w, then serializing
a filters-only options object holding w succeeds, and re-parsing the
serialized parameter pairs succeeds and returns exactly the same where tree
(hence the same keys and the same coerced leaf types and values). -/
theorem roundtrip_filters (raw : List (String × String))
    (hraw : rawFilterKeysOk raw = true)
    (hs : (parseQuery raw).success = true)
    (w : Obj) (hw : (parseQuery raw).data.where_ = some w) :
    (∃ qs, serializeQuery { filters := some w } = .ok qs) ∧
    (parseQuery (serializeParams { filters := some w })).success = true ∧
    (parseQuery (serializeParams { filters := some w })).data.where_
      = some w := by
  obtain ⟨hex2, hval, d, hpq, hdata⟩ := parseQuery_success_parts raw hs
  rw [hdata] at hw
  rw [(projectQuery_ok hpq).2.2.2.1] at hw
  rw [extractOptions_filters] at hw
  have hw2 : (if (buildFilters raw).isEmpty then none
      else some (buildFilters raw)) = some w := hw
  by_cases hemp : (buildFilters raw).isEmpty = true
  · rw [if_pos hemp] at hw2
    exact absurd hw2 (by simp)
  · have hemp2 : (buildFilters raw).isEmpty = false := by
      simpa using hemp
    rw [if_neg hemp] at hw2
    have hbf : buildFilters raw = w := Option.some_inj.mp hw2
    have hc : canonW w = true := hbf ▸ canonW_buildFilters_of_keysOk hraw
    have hwem : w.isEmpty = false := hbf ▸ hemp2
    have heq := serializeParams_filters_only hc
    have hpage : getV (serializeParams { filters := some w }) "page" = none := by
      rw [heq]
      exact getV_wrapped_base_none _ _ (fun p => (filtersKey_ne_base p).1)
    have hlimit : getV (serializeParams { filters := some w }) "limit" = none := by
      rw [heq]
      exact getV_wrapped_base_none _ _ (fun p => (filtersKey_ne_base p).2.1)
    have hsort : getV (serializeParams { filters := some w }) "sort" = none := by
      rw [heq]
      exact getV_wrapped_base_none _ _ (fun p => (filtersKey_ne_base p).2.2.1)
    have hfields : getV (serializeParams { filters := some w }) "fields" = none := by
      rw [heq]
      exact getV_wrapped_base_none _ _ (fun p => (filtersKey_ne_base p).2.2.2)
    have hbf2 : buildFilters (serializeParams { filters := some w }) = w := by
      rw [heq]
      unfold buildFilters
      rw [List.foldl_map]
      show (flattenRaw w "").foldl reFilter [] = w
      rw [foldl_reFilter_flatten w hc [] (fun k2 _ => rfl)]
      simp
    have hfinal := parseQuery_filters_pure (serializeParams { filters := some w })
      hpage hlimit hsort hfields (by rw [hbf2]; exact hwem)
    refine ⟨?_, ?_, ?_⟩
    · unfold serializeQuery
      have hvs : validSerialize { filters := some w } = true := by rfl
      rw [if_pos hvs]
      simp only []
      split_ifs <;> exact ⟨_, rfl⟩
    · rw [hfinal]
    · rw [hfinal]
      show some (buildFilters (serializeParams { filters := some w })) = some w
      rw [hbf2]

/-- C1 witness: the raw map with a nested filter path and a numeric leaf,
filters[profile.firstName]=John and filters[age]=30, parses to a where tree
that serializes and re-parses to itself. -/
theorem roundtrip_filters_witness :
    rawFilterKeysOk
        [("filters[profile.firstName]", "John"), ("filters[age]", "30")] = true ∧
    (parseQuery
        [("filters[profile.firstName]", "John"), ("filters[age]", "30")]).success
      = true ∧
    (parseQuery
        [("filters[profile.firstName]", "John"), ("filters[age]", "30")]).data.where_
      = some [("profile", .obj [("firstName", .str "John")]), ("age", .num 30)] ∧
    ((∃ qs, serializeQuery
        { filters := some [("profile", .obj [("firstName", .str "John")]),
                           ("age", .num 30)] } = .ok qs) ∧
     (parseQuery (serializeParams
        { filters := some [("profile", .obj [("firstName", .str "John")]),
                           ("age", .num 30)] })).success = true ∧
     (parseQuery (serializeParams
        { filters := some [("profile", .obj [("firstName", .str "John")]),
                           ("age", .num 30)] })).data.where_
       = some [("profile", .obj [("firstName", .str "John")]), ("age", .num 30)]) :=
  ⟨rfl, rfl, rfl,
    roundtrip_filters
      [("filters[profile.firstName]", "John"), ("filters[age]", "30")] rfl rfl
      [("profile", .obj [("firstName", .str "John")]), ("age", .num 30)] rfl⟩

end PQ
